import Mathlib

/-!
Verification development for the codevisualizer analysis pipeline.

Shallow embedding of the analyzers: the near-duplicate function (clone)
detector, the structure-graph export-usage accounting, the code-smell
detector, the per-file metrics pass, the symbol-extraction fallback, and
the HTTP server's source-snippet reader.

Modelling conventions:
* JavaScript numbers are modelled as `Nat`/`Int` (indices, sizes, line
  numbers) and `ℚ` (similarity ratios, scores).  JavaScript truthiness of
  a number is "≠ 0"; of a string, "≠ empty".
* JavaScript `Map`/`Set` objects are modelled as insertion-ordered
  association lists / duplicate-free lists with the same insert-if-absent
  semantics the code relies on.
* `Number(x.toFixed(2))` is modelled as rounding to two decimals
  (round half away from zero for the non-negative values that occur here).
* `while` loops are encoded by recursion on an explicit counter that is
  exactly the number of remaining iterations of the loop, or on a fuel
  argument that provably dominates the iteration count (each such use is
  noted at the definition).
-/

/-- `Number(x.toFixed(2))` for the non-negative rationals produced by the
analyzers: round `x * 100` to the nearest integer (half up) and divide back. -/
def round2 (q : ℚ) : ℚ := (round (q * 100) : ℚ) / 100

/-! ## Clone detector (cloneDetector.js): constants -/

def MIN_TOKENS : Nat := 5
def MAX_PAIRS : Nat := 250000
/-- `DEFAULT_THRESHOLD = 0.55`. -/
def DEFAULT_THRESHOLD : ℚ := 11 / 20
def SHINGLE_SIZE : Nat := 3
def WINDOW_SIZE : Nat := 4
def MAX_MATCHES_PER_PAIR : Nat := 200

/-- The `JS_FAMILY` set of language names. -/
def JS_FAMILY : List String :=
  ["javascript", "typescript", "js", "ts", "jsx", "tsx"]

/-! ## Symbol entries

One record shape is shared by the structure-graph `symbols` output, the
clone detector's input entries and the smell detector's input symbols
(the JS objects have exactly these fields). -/

structure SymbolEntry where
  id : String
  fileId : String
  name : String
  kind : String
  path : String
  language : String
  startLine : Int
  endLine : Int
  text : String
deriving DecidableEq, Repr

/-! ## stripCommentsPreserveLayout -/

/-- Consume the literal `pat` from the front of a character list,
returning the rest on success. -/
def dropLit : List Char → List Char → Option (List Char)
  | [], l => some l
  | _ :: _, [] => none
  | p :: pt, c :: ct => if p = c then dropLit pt ct else none

/-- Split a character list at the first occurrence of the literal `pat`:
returns `(before, after-the-pattern)`. -/
def splitAtSub (pat : List Char) : List Char → Option (List Char × List Char)
  | [] => (dropLit pat []).map (fun r => (([] : List Char), r))
  | c :: t =>
    match dropLit pat (c :: t) with
    | some rest => some ([], rest)
    | none => (splitAtSub pat t).map (fun p => (c :: p.1, p.2))

/-- Replace every character except `\n` by a space (the comment-blanking
replacement `match.replace(/[^\n]/g, " ")`). -/
def blankKeepNewlines (l : List Char) : List Char :=
  l.map (fun c => if c = '\n' then c else ' ')

/-- First replacement pass of `stripCommentsPreserveLayout`:
`text.replace(/\/\*[\s\S]*?\*\//g, blank interior)`.  Leftmost shortest
matches; an unclosed `/*` does not match and the remaining text is kept.
Fuel: each recursive step consumes at least the four characters of the
comment delimiters, so `l.length` steps always suffice. -/
def stripBlockComments : Nat → List Char → List Char
  | 0, l => l
  | fuel + 1, l =>
    match splitAtSub ['/', '*'] l with
    | none => l
    | some (before, afterOpen) =>
      match splitAtSub ['*', '/'] afterOpen with
      | none => l
      | some (inner, rest) =>
        before ++ blankKeepNewlines ('/' :: '*' :: (inner ++ ['*', '/']))
          ++ stripBlockComments fuel rest

/-- Second replacement pass: `replace(/\/\/.*$/gm, blank interior)`.
From each `//` on, every character up to the next line terminator
(`\n` or `\r`, which end lines for the `m` flag and are excluded by `.`)
is blanked.  The boolean argument is "currently inside a line comment". -/
def stripLineCommentsGo : Bool → List Char → List Char
  | _, [] => []
  | true, c :: t =>
    if c = '\n' ∨ c = '\r' then c :: stripLineCommentsGo false t
    else ' ' :: stripLineCommentsGo true t
  | false, '\n' :: t => '\n' :: stripLineCommentsGo false t
  | false, '\r' :: t => '\r' :: stripLineCommentsGo false t
  | false, '/' :: '/' :: t => ' ' :: ' ' :: stripLineCommentsGo true t
  | false, c :: t => c :: stripLineCommentsGo false t

/-- `stripCommentsPreserveLayout(text)`. -/
def stripCommentsPreserveLayout (text : String) : List Char :=
  stripLineCommentsGo false (stripBlockComments text.length text.toList)

/-! ## tokenizeWithMeta -/

/-- The `[A-Za-z0-9_]` character class used by the token regex and by
JavaScript word boundaries. -/
def isTokenChar (c : Char) : Bool := c.isAlpha || c.isDigit || c = '_'

/-- ASCII lowercasing of one character; the only characters the analyzers
lowercase are ASCII, where this agrees with `String.prototype.toLowerCase`. -/
def charLower (c : Char) : Char :=
  if 'A' ≤ c ∧ c ≤ 'Z' then Char.ofNat (c.toNat + 32) else c

/-- ASCII `toLowerCase`. -/
def strLower (s : String) : String := String.mk (s.toList.map charLower)

structure TokenMeta where
  tokens : List String
  offsets : List Nat
  lengths : List Nat
deriving DecidableEq, Repr

/-- Take the maximal run of token characters at the head of a list. -/
def takeRun : List Char → (List Char × List Char)
  | [] => ([], [])
  | c :: t =>
    if isTokenChar c then
      let (r, rest) := takeRun t
      (c :: r, rest)
    else ([], c :: t)

/-- The matching loop of `tokenizeWithMeta`: scan the sanitized text for
maximal `[A-Za-z0-9_]+` runs, lowercase each, drop a lone `_`, record the
offset and raw length of each match, and stop once 5000 tokens are kept.
`i` is the current character offset, `n` the number of tokens so far.
Fuel: every step consumes at least one character, so fuel equal to the
length of the scanned list replays the loop exactly. -/
def tokenizeGo : Nat → List Char → Nat → Nat → (List String × List Nat × List Nat)
  | 0, _, _, _ => ([], [], [])
  | _, [], _, _ => ([], [], [])
  | fuel + 1, c :: t, i, n =>
    if isTokenChar c then
      let (r, rest) := takeRun t
      let raw := c :: r
      let tok := String.mk (raw.map charLower)
      if tok = "_" then tokenizeGo fuel rest (i + raw.length) n
      else if 5000 ≤ n + 1 then ([tok], [i], [raw.length])
      else
        let (ts, os, ls) := tokenizeGo fuel rest (i + raw.length) (n + 1)
        (tok :: ts, i :: os, raw.length :: ls)
    else tokenizeGo fuel t (i + 1) n

/-- `tokenizeWithMeta(text)`. -/
def tokenizeWithMeta (text : String) : TokenMeta :=
  if text = "" then ⟨[], [], []⟩
  else
    let sanitized := stripCommentsPreserveLayout text
    let (ts, os, ls) := tokenizeGo sanitized.length sanitized 0 0
    ⟨ts, os, ls⟩

/-! ## buildTokenCounts -/

/-- Increment the count of `t` in an insertion-ordered count map
(`counts.set(token, (counts.get(token) || 0) + 1)`). -/
def bumpCount (t : String) : List (String × Nat) → List (String × Nat)
  | [] => [(t, 1)]
  | (k, v) :: rest => if k = t then (k, v + 1) :: rest else (k, v) :: bumpCount t rest

/-- `buildTokenCounts(tokens)`: a `Map` from token to multiplicity. -/
def buildTokenCounts (tokens : List String) : List (String × Nat) :=
  tokens.foldl (fun m t => bumpCount t m) []

/-- Association-list lookup (JS `Map.prototype.get`). -/
def alistGet {κ α : Type} [DecidableEq κ] (m : List (κ × α)) (k : κ) : Option α :=
  match m with
  | [] => none
  | (k2, v) :: rest => if k2 = k then some v else alistGet rest k

/-! ## hashShingle and computeFingerprints -/

structure HashIdx where
  hash : Nat
  index : Nat
deriving DecidableEq, Repr

instance : Inhabited HashIdx := ⟨⟨0, 0⟩⟩

/-- `hashShingle(tokens, start, length)`: character-wise multiply-accumulate
with prime modulus 1000003, per-character multiplier 31 and inter-token
mix 131. -/
def hashShingle (tokens : List String) (start len : Nat) : Nat :=
  (List.range len).foldl
    (fun h i =>
      let value := tokens.getD (start + i) ""
      let h2 := value.toList.foldl (fun h c => (h * 31 + c.toNat) % 1000003) h
      (h2 * 131 + 1) % 1000003)
    0

/-- `pushFingerprint`: append `candidate` unless it equals (same hash and
index) the last emitted fingerprint. -/
def pushFingerprint (fps : List HashIdx) (candidate : HashIdx) : List HashIdx :=
  match fps.getLast? with
  | some prev => if prev = candidate then fps else fps ++ [candidate]
  | none => fps ++ [candidate]

/-- The strict preference used by `winnow`: `current` displaces `best` iff
`current.hash < best.hash`, or the hashes are equal and `current.index` is
larger. -/
def beat (a b : HashIdx) : Bool :=
  a.hash < b.hash || (a.hash == b.hash && b.index < a.index)

/-- One comparison step of the various minimum-selection folds. -/
def pickMin (best current : HashIdx) : HashIdx :=
  if beat current best then current else best

/-- The rescan loop of `winnow` (`for i = windowStart..windowEnd`),
tracking the position of the current minimum; positions are given as the
explicit list `ps`. -/
def scanMinPos (hs : List HashIdx) (mi : Nat) : List Nat → Nat
  | [] => mi
  | i :: ps =>
    scanMinPos hs (if beat (hs.getD i default) (hs.getD mi default) then i else mi) ps

/-- The main `while (windowEnd < hashes.length)` loop of `winnow`.
`remaining` is exactly `hashes.length - windowEnd`, which decreases by one
per iteration, so the recursion replays the loop step for step;
`ws` is `windowStart` and `minIdx` the JS `minIndex` (initially `-1`). -/
def winnowLoop (hs : List HashIdx) (w : Nat) :
    Nat → Nat → Int → List HashIdx → List HashIdx
  | 0, _, _, fps => fps
  | r + 1, ws, minIdx, fps =>
    let we := ws + w - 1
    if minIdx < (ws : Int) then
      let mi := scanMinPos hs ws (List.range' ws w)
      winnowLoop hs w r (ws + 1) (mi : Int) (pushFingerprint fps (hs.getD mi default))
    else
      let next := hs.getD we default
      let mn := hs.getD minIdx.toNat default
      if beat next mn then
        winnowLoop hs w r (ws + 1) (we : Int) (pushFingerprint fps next)
      else winnowLoop hs w r (ws + 1) minIdx fps

/-- `winnow(hashes, windowSize)`.  For `|hashes| ≤ windowSize` the single
reduce-selected global minimum is returned; otherwise the sliding-window
loop runs `hashes.length - (windowSize - 1)` times (once per value of
`windowEnd` from `windowSize - 1` to `hashes.length - 1`). -/
def winnow (hs : List HashIdx) (w : Nat) : List HashIdx :=
  if hs.isEmpty || w == 0 then []
  else if hs.length ≤ w then
    match hs with
    | [] => []
    | h :: t => [t.foldl pickMin h]
  else winnowLoop hs w (hs.length - (w - 1)) 0 (-1) []

/-- Append `idx` to the ≤64-element position list of `hash` in the
fingerprint index (`if (arr.length < 64) arr.push(fp.index)`), creating
the entry if absent. -/
def fpIndexAdd (m : List (Nat × List Nat)) (hash idx : Nat) : List (Nat × List Nat) :=
  match m with
  | [] => [(hash, [idx])]
  | (h, arr) :: rest =>
    if h = hash then (h, if arr.length < 64 then arr ++ [idx] else arr) :: rest
    else (h, arr) :: fpIndexAdd rest hash idx

structure Fingerprints where
  fingerprints : List HashIdx
  fingerprintIndex : List (Nat × List Nat)
  fingerprintHashes : List Nat
deriving DecidableEq, Repr

/-- `computeFingerprints(tokens, shingleSize, windowSize)`. -/
def computeFingerprints (tokens : List String) (shingleSize windowSize : Nat) :
    Fingerprints :=
  if tokens.length < shingleSize then ⟨[], [], []⟩
  else
    let hashes := (List.range (tokens.length - shingleSize + 1)).map
      (fun i => HashIdx.mk (hashShingle tokens i shingleSize) i)
    let fps := winnow hashes windowSize
    let index := fps.foldl (fun m fp => fpIndexAdd m fp.hash fp.index) []
    ⟨fps, index, index.map (·.1)⟩

/-! ## Enriched symbols -/

structure EnrichedSym where
  id : String
  path : String
  fileId : String
  startLine : Int
  endLine : Int
  language : String
  tokens : List String
  tokenOffsets : List Nat
  tokenLengths : List Nat
  lineOffsets : List Nat
  fingerprints : List HashIdx
  fingerprintIndex : List (Nat × List Nat)
  fingerprintHashes : List Nat
  tokenCounts : List (String × Nat)
  tokenTotal : Nat
deriving DecidableEq, Repr

/-- The inner scan of `buildLineOffsets`: emit `i + 1` for every newline
at position `i`. -/
def lineOffsetsGo : List Char → Nat → List Nat
  | [], _ => []
  | c :: t, i =>
    if c = '\n' then (i + 1) :: lineOffsetsGo t (i + 1) else lineOffsetsGo t (i + 1)

/-- `buildLineOffsets(content)`: offsets of the first character of every
line, starting with 0. -/
def buildLineOffsets (content : String) : List Nat :=
  0 :: lineOffsetsGo content.toList 0

/-- The binary-search loop of `locateLine`.  Fuel: the interval
`[low, high]` starts no larger than `offsets.length` and shrinks strictly
every iteration, so `offsets.length + 1` iterations always suffice; the
fuel-exhausted fallback is unreachable.  `mid = Math.floor((low+high)/2)`
with `low + high ≥ 0`, so `Int` division agrees with `floor`. -/
def locateLineGo (position : Nat) (offsets : List Nat) : Nat → Int → Int → Nat
  | 0, _, _ => offsets.length
  | fuel + 1, low, high =>
    if low ≤ high then
      let mid := (low + high) / 2
      let start := offsets.getD mid.toNat 0
      if (position : Int) < (start : Int) then locateLineGo position offsets fuel low (mid - 1)
      else
        match offsets.get? (mid.toNat + 1) with
        | some nx =>
          if nx ≤ position then locateLineGo position offsets fuel (mid + 1) high
          else mid.toNat + 1
        | none => mid.toNat + 1
    else offsets.length

/-- `locateLine(position, offsets)`: 1-based line number of a character
offset, via binary search over line starts (`offsets[mid+1] ?? Infinity`). -/
def locateLine (position : Nat) (offsets : List Nat) : Nat :=
  if offsets.length = 0 then 1
  else locateLineGo position offsets (offsets.length + 1) 0 ((offsets.length : Int) - 1)

/-- `enrichSymbol(rootPath, symbol)`: `None` when the entry has no text or
id, or tokenizes to fewer than `MIN_TOKENS` tokens. -/
def enrichSymbol (symbol : SymbolEntry) : Option EnrichedSym :=
  if symbol.text = "" ∨ symbol.id = "" then none
  else
    let meta := tokenizeWithMeta symbol.text
    if meta.tokens.length < MIN_TOKENS then none
    else
      let fp := computeFingerprints meta.tokens SHINGLE_SIZE WINDOW_SIZE
      some
        { id := symbol.id
          path := symbol.path
          fileId := if symbol.fileId = "" then "file:" ++ symbol.path else symbol.fileId
          startLine := symbol.startLine
          endLine := symbol.endLine
          language := symbol.language
          tokens := meta.tokens
          tokenOffsets := meta.offsets
          tokenLengths := meta.lengths
          lineOffsets := buildLineOffsets symbol.text
          fingerprints := fp.fingerprints
          fingerprintIndex := fp.fingerprintIndex
          fingerprintHashes := fp.fingerprintHashes
          tokenCounts := buildTokenCounts meta.tokens
          tokenTotal := meta.tokens.length }

/-- `isFunctionLike(entry)`. -/
def isFunctionLike (entry : SymbolEntry) : Bool :=
  strLower entry.kind == "function" || strLower entry.kind == "component"

/-! ## Language compatibility -/

/-- `normalizeLanguage(value)`: `None` for a falsy value, otherwise the
lowercased name with the JS family collapsed to "js-family". -/
def normalizeLanguage (value : String) : Option String :=
  if value = "" then none
  else
    let normalized := strLower value
    if JS_FAMILY.contains normalized then some "js-family" else some normalized

/-- `languagesAreCompatible(a, b)`. -/
def languagesAreCompatible (a b : String) : Bool :=
  match normalizeLanguage a, normalizeLanguage b with
  | none, _ => true
  | _, none => true
  | some x, some y => x == y

/-! ## hasSharedFingerprints and computeSymbolOverlap -/

/-- `hasSharedFingerprints(a, b)`: iterate the smaller hash set probing
the larger. -/
def hasSharedFingerprints (a b : EnrichedSym) : Bool :=
  let smaller :=
    if a.fingerprintHashes.length ≤ b.fingerprintHashes.length
    then a.fingerprintHashes else b.fingerprintHashes
  let larger :=
    if a.fingerprintHashes.length ≤ b.fingerprintHashes.length
    then b.fingerprintHashes else a.fingerprintHashes
  smaller.any (fun h => larger.contains h)

/-- A merged or raw token segment; the JS field `end` is called `stop`
here because `end` is a Lean keyword. -/
structure Segment where
  start : Nat
  stop : Nat
deriving DecidableEq, Repr

structure MatchSeg where
  startA : Nat
  endA : Nat
  startB : Nat
  endB : Nat
deriving DecidableEq, Repr

/-- The backwards extension loop of `extendMatch`
(`while startA > 0 && startB > 0 && tokensA[startA-1] === tokensB[startB-1]`). -/
def extendLeft (tA tB : List String) : Nat → Nat → Nat × Nat
  | 0, sB => (0, sB)
  | sA + 1, 0 => (sA + 1, 0)
  | sA + 1, sB + 1 =>
    if tA.getD sA "" = tB.getD sB "" then extendLeft tA tB sA sB
    else (sA + 1, sB + 1)

/-- The forwards extension loop of `extendMatch`.  Fuel: `endA` increases
by one per iteration and stays below `tA.length`, so `tA.length` steps
always suffice. -/
def extendRight (tA tB : List String) : Nat → Nat → Nat → Nat × Nat
  | 0, eA, eB => (eA, eB)
  | fuel + 1, eA, eB =>
    if eA + 1 < tA.length ∧ eB + 1 < tB.length ∧
        tA.getD (eA + 1) "" = tB.getD (eB + 1) "" then
      extendRight tA tB fuel (eA + 1) (eB + 1)
    else (eA, eB)

/-- `extendMatch(tokensA, tokensB, idxA, idxB, shingleSize)`.  The JS
guard `!tokensA || !tokensB` checks for `null` arrays only and cannot fire
in this model.  `limit` uses `Nat` subtraction: an out-of-range index
yields 0 exactly where JS yields a negative value, and both fail
`limit < shingleSize` the same way. -/
def extendMatch (tA tB : List String) (idxA idxB shingleSize : Nat) :
    Option MatchSeg :=
  let limit := min (tA.length - idxA) (tB.length - idxB)
  if limit < shingleSize then none
  else
    let s := extendLeft tA tB idxA idxB
    let e := extendRight tA tB tA.length (idxA + shingleSize - 1) (idxB + shingleSize - 1)
    some ⟨s.1, e.1, s.2, e.2⟩

/-- Stable insertion by segment start (equal starts keep their relative
order), equivalent to the ES2019 stable `Array.prototype.sort` with
comparator `(a, b) => a.start - b.start`. -/
def insertSeg (s : Segment) : List Segment → List Segment
  | [] => [s]
  | h :: t => if s.start < h.start then s :: h :: t else h :: insertSeg s t

def sortSegs (l : List Segment) : List Segment :=
  l.foldl (fun acc s => insertSeg s acc) []

/-- The merge fold of `mergeSegments`; `last` is the in-place mutated last
element of the merged list. -/
def mergeGo (last : Segment) (acc : List Segment) : List Segment → List Segment
  | [] => acc ++ [last]
  | c :: t =>
    if c.start ≤ last.stop + 1 then
      mergeGo ⟨last.start, max last.stop c.stop⟩ acc t
    else mergeGo c (acc ++ [last]) t

/-- `mergeSegments(segments)`. -/
def mergeSegments (l : List Segment) : List Segment :=
  match sortSegs l with
  | [] => []
  | h :: t => mergeGo h [] t

/-- State of the `computeSymbolOverlap` matching loops: the `seenPairs`
set of "idxA:idxB" keys and the two collected segment lists. -/
structure OverlapState where
  seen : List String
  segsA : List Segment
  segsB : List Segment
deriving DecidableEq, Repr

/-- Innermost loop of `computeSymbolOverlap` (`for idxB of positionsB`),
with the `seenPairs.size >= MAX_MATCHES_PER_PAIR` break. -/
def overlapInner (tA tB : List String) (idxA : Nat) :
    List Nat → OverlapState → OverlapState
  | [], st => st
  | idxB :: rest, st =>
    if MAX_MATCHES_PER_PAIR ≤ st.seen.length then st
    else
      let key := toString idxA ++ ":" ++ toString idxB
      if st.seen.contains key then overlapInner tA tB idxA rest st
      else
        let seen := st.seen ++ [key]
        match extendMatch tA tB idxA idxB SHINGLE_SIZE with
        | some m =>
          overlapInner tA tB idxA rest
            ⟨seen, st.segsA ++ [⟨m.startA, m.endA⟩], st.segsB ++ [⟨m.startB, m.endB⟩]⟩
        | none => overlapInner tA tB idxA rest ⟨seen, st.segsA, st.segsB⟩

/-- Middle loop (`for idxA of positionsA`), breaking after an inner pass
once the seen-pair cap is reached. -/
def overlapMid (tA tB : List String) (positionsB : List Nat) :
    List Nat → OverlapState → OverlapState
  | [], st => st
  | idxA :: rest, st =>
    let st2 := overlapInner tA tB idxA positionsB st
    if MAX_MATCHES_PER_PAIR ≤ st2.seen.length then st2
    else overlapMid tA tB positionsB rest st2

/-- Outer loop (`for hash of shared`), breaking once the seen-pair cap is
reached. -/
def overlapOuter (a b : EnrichedSym) : List Nat → OverlapState → OverlapState
  | [], st => st
  | hash :: rest, st =>
    let positionsA := (alistGet a.fingerprintIndex hash).getD []
    let positionsB := (alistGet b.fingerprintIndex hash).getD []
    let st2 := overlapMid a.tokens b.tokens positionsB positionsA st
    if MAX_MATCHES_PER_PAIR ≤ st2.seen.length then st2
    else overlapOuter a b rest st2

structure Overlap where
  similarity : ℚ
  segmentsA : List Segment
  segmentsB : List Segment
deriving DecidableEq, Repr

/-- `computeSymbolOverlap(a, b)`. -/
def computeSymbolOverlap (a b : EnrichedSym) : Option Overlap :=
  let shared := a.fingerprintHashes.filter (fun h => b.fingerprintHashes.contains h)
  if shared.isEmpty then none
  else
    let st := overlapOuter a b shared ⟨[], [], []⟩
    if st.segsA.isEmpty ∨ st.segsB.isEmpty then none
    else
      let mergedA := mergeSegments st.segsA
      let mergedB := mergeSegments st.segsB
      if mergedA.isEmpty ∨ mergedB.isEmpty then none
      else
        let overlapTokens : Int :=
          mergedA.foldl (fun sum seg => sum + ((seg.stop : Int) - (seg.start : Int) + 1)) 0
        let denominator := max a.tokens.length b.tokens.length
        if denominator = 0 then none
        else
          some ⟨(overlapTokens : ℚ) / (denominator : ℚ), mergedA, mergedB⟩

/-! ## diceCoefficient -/

/-- `diceCoefficient(countsA, totalA, countsB, totalB)`; the `!countsA`
null-checks cannot fire in this model, `!totalA`/`!totalB` are zero
tests. -/
def diceCoefficient (countsA : List (String × Nat)) (totalA : Nat)
    (countsB : List (String × Nat)) (totalB : Nat) : ℚ :=
  if totalA = 0 ∨ totalB = 0 then 0
  else
    let intersection : Nat := countsA.foldl
      (fun acc p =>
        match alistGet countsB p.1 with
        | some cb => acc + min p.2 cb
        | none => acc)
      0
    let combined := totalA + totalB
    if combined = 0 then 0
    else (2 * (intersection : ℚ)) / (combined : ℚ)

/-! ## segmentsToLines, addClone, findSymbolClones -/

structure LineRange where
  startLine : Int
  endLine : Int
deriving DecidableEq, Repr

/-- `segmentsToLines(symbol, segments)`. -/
def segmentsToLines (symbol : EnrichedSym) (segments : List Segment) : LineRange :=
  match segments with
  | [] => ⟨symbol.startLine, symbol.endLine⟩
  | first :: _ =>
    let last := segments.getLastD first
    let startOffset := symbol.tokenOffsets.getD first.start 0
    let endTokenOffset :=
      match symbol.tokenOffsets.get? last.stop with
      | some o => o + symbol.tokenLengths.getD last.stop 0
      | none => symbol.tokenOffsets.getD first.start 0
    let startLine : Int :=
      symbol.startLine + (locateLine startOffset symbol.lineOffsets : Int) - 1
    let endLine : Int :=
      symbol.startLine + (locateLine (endTokenOffset - 1) symbol.lineOffsets : Int) - 1
    ⟨if startLine ≠ 0 then startLine else symbol.startLine,
     if endLine ≠ 0 then endLine else symbol.endLine⟩

structure CloneEntry where
  targetId : String
  filePath : String
  startLine : Int
  endLine : Int
  similarity : ℚ
deriving DecidableEq, Repr

/-- The insertion-ordered clone results `Map` (`symbolId → CloneEntry[]`). -/
def ResultMap : Type := List (String × List CloneEntry)

/-- `map.get(key)` on the result map. -/
def lookupR (m : ResultMap) (k : String) : Option (List CloneEntry) :=
  alistGet m k

/-- Push an entry onto the (created-if-absent) list of `k`, preserving
`Map` insertion order. -/
def pushEntry : ResultMap → String → CloneEntry → ResultMap
  | [], k, e => [(k, [e])]
  | (k2, es) :: t, k, e =>
    if k2 = k then (k2, es ++ [e]) :: t else (k2, es) :: pushEntry t k e

/-- `addClone(map, source, target, similarity, range)`: the stored
similarity is `Number(similarity.toFixed(2))`; zero (falsy) range
endpoints fall back to the target symbol's own lines. -/
def addClone (m : ResultMap) (source target : EnrichedSym) (similarity : ℚ)
    (range : Option LineRange) : ResultMap :=
  let startLine :=
    match range with
    | some r => if r.startLine ≠ 0 then r.startLine else target.startLine
    | none => target.startLine
  let endLine :=
    match range with
    | some r => if r.endLine ≠ 0 then r.endLine else target.endLine
    | none => target.endLine
  pushEntry m source.id
    ⟨target.id, target.path, startLine, endLine, round2 similarity⟩

/-- The body of the pairwise comparison (one `(a, b)` iteration of the
nested loops of `findSymbolClones`, after the language- and budget checks
have passed). -/
def cloneStep (a b : EnrichedSym) (threshold : ℚ) (acc : ResultMap) : ResultMap :=
  let overlap := if hasSharedFingerprints a b then computeSymbolOverlap a b else none
  let dice := diceCoefficient a.tokenCounts a.tokenTotal b.tokenCounts b.tokenTotal
  let similarity :=
    match overlap with
    | some o => max o.similarity dice
    | none => dice
  if threshold ≤ similarity then
    let rangeForB := overlap.map (fun o => segmentsToLines b o.segmentsB)
    let rangeForA := overlap.map (fun o => segmentsToLines a o.segmentsA)
    addClone (addClone acc a b similarity rangeForB) b a similarity rangeForA
  else acc

/-- The computed similarity of a compared pair (the `similarity` local of
the loop body). -/
def similarityOf (a b : EnrichedSym) : ℚ :=
  match (if hasSharedFingerprints a b then computeSymbolOverlap a b else none) with
  | some o => max o.similarity
      (diceCoefficient a.tokenCounts a.tokenTotal b.tokenCounts b.tokenTotal)
  | none => diceCoefficient a.tokenCounts a.tokenTotal b.tokenCounts b.tokenTotal

/-- The inner loop of `findSymbolClones` (`for j = i+1 ...`): returns the
updated results map and comparison counter.  The `comparisons >= MAX_PAIRS`
check breaks before the pair is examined; an incompatible language skips
the pair without counting it. -/
def cloneInner (a : EnrichedSym) (threshold : ℚ) :
    List EnrichedSym → Nat → ResultMap → ResultMap × Nat
  | [], comparisons, acc => (acc, comparisons)
  | b :: rest, comparisons, acc =>
    if MAX_PAIRS ≤ comparisons then (acc, comparisons)
    else if ¬ languagesAreCompatible a.language b.language then
      cloneInner a threshold rest comparisons acc
    else cloneInner a threshold rest (comparisons + 1) (cloneStep a b threshold acc)

/-- The outer loop of `findSymbolClones` (`for i ...`). -/
def cloneOuter (threshold : ℚ) : List EnrichedSym → Nat → ResultMap → ResultMap
  | [], _, acc => acc
  | a :: rest, comparisons, acc =>
    let p := cloneInner a threshold rest comparisons acc
    cloneOuter threshold rest p.2 p.1

/-- The prepared symbol list of `findSymbolClones`: restrict to
function-like entries, enrich, drop rejects. -/
def symbolsPrepared (entries : List SymbolEntry) : List EnrichedSym :=
  (entries.filter isFunctionLike).filterMap enrichSymbol

/-- `findSymbolClones(rootPath, symbolEntries, threshold)`; `rootPath` is
unused by the JS function beyond being passed to `enrichSymbol`, which
ignores it. -/
def findSymbolClones (entries : List SymbolEntry)
    (threshold : ℚ := DEFAULT_THRESHOLD) : ResultMap :=
  if entries.isEmpty then []
  else
    let symbols := symbolsPrepared entries
    if symbols.isEmpty then []
    else cloneOuter threshold symbols 0 []

/-! ## C1: symmetry of the clone results -/

/-- The clones map contains a directed entry `src → tgt` with stored
similarity `v`. -/
def entryIn (m : ResultMap) (src tgt : String) (v : ℚ) : Prop :=
  ∃ es, lookupR m src = some es ∧ ∃ e ∈ es, e.targetId = tgt ∧ e.similarity = v

theorem lookupR_pushEntry (m : ResultMap) (k : String) (e : CloneEntry)
    (k2 : String) :
    lookupR (pushEntry m k e) k2 =
      if k2 = k then some ((lookupR m k).getD [] ++ [e]) else lookupR m k2 := by
  induction m with
  | nil =>
    by_cases h : k2 = k
    · subst h; simp [pushEntry, lookupR, alistGet]
    · have h2 : ¬ k = k2 := fun hh => h hh.symm
      simp [pushEntry, lookupR, alistGet, h, h2]
  | cons p t ih =>
    obtain ⟨k3, es⟩ := p
    by_cases h3 : k3 = k
    · subst h3
      by_cases h2 : k2 = k3
      · subst h2; simp [pushEntry, lookupR, alistGet]
      · have h2s : ¬ k3 = k2 := fun hh => h2 hh.symm
        simp [pushEntry, lookupR, alistGet, h2, h2s]
    · by_cases h2 : k2 = k3
      · subst h2
        have hk : ¬ k2 = k := fun hh => h3 (hh ▸ rfl)
        simp [pushEntry, lookupR, alistGet, h3, hk]
      · have h2s : ¬ k3 = k2 := fun hh => h2 hh.symm
        simp only [pushEntry, if_neg h3, lookupR, alistGet, if_neg h2s]
        simpa [lookupR, alistGet, if_neg h2s] using ih

theorem entryIn_pushEntry (m : ResultMap) (k : String) (e : CloneEntry)
    (s t : String) (v : ℚ) :
    entryIn (pushEntry m k e) s t v ↔
      entryIn m s t v ∨ (s = k ∧ e.targetId = t ∧ e.similarity = v) := by
  by_cases h : s = k
  · subst h
    constructor
    · rintro ⟨es, hes, x, hx, hxt, hxv⟩
      rw [lookupR_pushEntry, if_pos rfl] at hes
      injection hes with hes2
      rw [← hes2] at hx
      rcases List.mem_append.mp hx with hx | hx
      · cases hL : lookupR m s with
        | none => rw [hL] at hx; simp at hx
        | some es0 =>
          rw [hL] at hx
          exact Or.inl ⟨es0, hL, x, hx, hxt, hxv⟩
      · rw [List.mem_singleton] at hx
        subst hx
        exact Or.inr ⟨rfl, hxt, hxv⟩
    · rintro (⟨es, hes, x, hx, hxt, hxv⟩ | ⟨-, hxt, hxv⟩)
      · refine ⟨(lookupR m s).getD [] ++ [e], ?_, x, ?_, hxt, hxv⟩
        · rw [lookupR_pushEntry, if_pos rfl]
        · exact List.mem_append.mpr (Or.inl (by rw [hes]; exact hx))
      · refine ⟨(lookupR m s).getD [] ++ [e], ?_, e, ?_, hxt, hxv⟩
        · rw [lookupR_pushEntry, if_pos rfl]
        · exact List.mem_append.mpr (Or.inr (List.mem_singleton.mpr rfl))
  · constructor
    · rintro ⟨es, hes, hx⟩
      rw [lookupR_pushEntry, if_neg h] at hes
      exact Or.inl ⟨es, hes, hx⟩
    · rintro (⟨es, hes, hx⟩ | ⟨hsk, -⟩)
      · refine ⟨es, ?_, hx⟩
        rw [lookupR_pushEntry, if_neg h]
        exact hes
      · exact absurd hsk h

theorem entryIn_addClone (m : ResultMap) (a b : EnrichedSym) (sim : ℚ)
    (r : Option LineRange) (s t : String) (v : ℚ) :
    entryIn (addClone m a b sim r) s t v ↔
      entryIn m s t v ∨ (s = a.id ∧ t = b.id ∧ v = round2 sim) := by
  unfold addClone
  rw [entryIn_pushEntry]
  constructor
  · rintro (h | ⟨h1, h2, h3⟩)
    · exact Or.inl h
    · exact Or.inr ⟨h1, h2.symm, h3.symm⟩
  · rintro (h | ⟨h1, h2, h3⟩)
    · exact Or.inl h
    · exact Or.inr ⟨h1, h2.symm, h3.symm⟩

theorem entryIn_cloneStep (a b : EnrichedSym) (θ : ℚ) (acc : ResultMap)
    (s t : String) (v : ℚ) :
    entryIn (cloneStep a b θ acc) s t v ↔
      entryIn acc s t v ∨
        (θ ≤ similarityOf a b ∧
          ((s = a.id ∧ t = b.id ∧ v = round2 (similarityOf a b)) ∨
           (s = b.id ∧ t = a.id ∧ v = round2 (similarityOf a b)))) := by
  simp only [cloneStep, similarityOf]
  cases hov : (if hasSharedFingerprints a b then computeSymbolOverlap a b else none) with
  | none =>
    by_cases hth :
        θ ≤ diceCoefficient a.tokenCounts a.tokenTotal b.tokenCounts b.tokenTotal
    · rw [if_pos hth, entryIn_addClone, entryIn_addClone]
      tauto
    · rw [if_neg hth]
      tauto
  | some o =>
    by_cases hth :
        θ ≤ max o.similarity
          (diceCoefficient a.tokenCounts a.tokenTotal b.tokenCounts b.tokenTotal)
    · rw [if_pos hth, entryIn_addClone, entryIn_addClone]
      tauto
    · rw [if_neg hth]
      tauto

/-- The symmetry-and-irreflexivity invariant of the results map. -/
def SymmIrr (m : ResultMap) : Prop :=
  (∀ s t v, entryIn m s t v ↔ entryIn m t s v) ∧ (∀ s v, ¬ entryIn m s s v)

theorem symmIrr_nil : SymmIrr [] := by
  constructor
  · intro s t v
    constructor <;> (rintro ⟨es, hes, -⟩; simp [lookupR, alistGet] at hes)
  · rintro s v ⟨es, hes, -⟩
    simp [lookupR, alistGet] at hes

theorem symmIrr_cloneStep (a b : EnrichedSym) (θ : ℚ) (acc : ResultMap)
    (hab : a.id ≠ b.id) (h : SymmIrr acc) : SymmIrr (cloneStep a b θ acc) := by
  obtain ⟨hs, hi⟩ := h
  constructor
  · intro s t v
    rw [entryIn_cloneStep, entryIn_cloneStep, hs]
    tauto
  · intro s v hmem
    rw [entryIn_cloneStep] at hmem
    rcases hmem with hmem | ⟨-, ⟨h1, h2, -⟩ | ⟨h1, h2, -⟩⟩
    · exact hi s v hmem
    · exact hab (h1 ▸ h2 ▸ rfl)
    · exact hab (h2 ▸ h1 ▸ rfl)

theorem symmIrr_cloneInner (a : EnrichedSym) (θ : ℚ) :
    ∀ (rest : List EnrichedSym) (c : Nat) (acc : ResultMap),
      (∀ b ∈ rest, a.id ≠ b.id) → SymmIrr acc →
        SymmIrr (cloneInner a θ rest c acc).1
  | [], _, acc, _, h => by simpa [cloneInner] using h
  | b :: rest, c, acc, hab, h => by
    by_cases hc : MAX_PAIRS ≤ c
    · simpa [cloneInner, hc] using h
    · by_cases hl : languagesAreCompatible a.language b.language
      · simpa [cloneInner, hc, hl] using
          symmIrr_cloneInner a θ rest (c + 1) (cloneStep a b θ acc)
            (fun x hx => hab x (List.mem_cons_of_mem _ hx))
            (symmIrr_cloneStep a b θ acc (hab b (List.mem_cons_self _ _)) h)
      · simpa [cloneInner, hc, hl] using
          symmIrr_cloneInner a θ rest c acc
            (fun x hx => hab x (List.mem_cons_of_mem _ hx)) h

theorem symmIrr_cloneOuter (θ : ℚ) :
    ∀ (l : List EnrichedSym) (c : Nat) (acc : ResultMap),
      l.Pairwise (fun x y => x.id ≠ y.id) → SymmIrr acc →
        SymmIrr (cloneOuter θ l c acc)
  | [], _, acc, _, h => by simpa [cloneOuter] using h
  | a :: rest, c, acc, hl, h => by
    rw [List.pairwise_cons] at hl
    simpa [cloneOuter] using
      symmIrr_cloneOuter θ rest (cloneInner a θ rest c acc).2
        (cloneInner a θ rest c acc).1 hl.2
        (symmIrr_cloneInner a θ rest c acc hl.1 h)

/-- C1.  Clone results are symmetric: provided the prepared function-like
symbols have pairwise distinct ids (as the structure-graph symbol ids are),
the `findSymbolClones` map contains `A → B` with similarity `v` iff it
contains `B → A` with the same similarity `v`, and no symbol has an entry
targeting itself. -/
theorem clones_symmetric_irreflexive (entries : List SymbolEntry) (θ : ℚ)
    (h : (symbolsPrepared entries).Pairwise (fun x y => x.id ≠ y.id)) :
    (∀ A B v, entryIn (findSymbolClones entries θ) A B v ↔
        entryIn (findSymbolClones entries θ) B A v) ∧
      (∀ A v, ¬ entryIn (findSymbolClones entries θ) A A v) := by
  unfold findSymbolClones
  by_cases he : entries.isEmpty
  · simpa [he] using symmIrr_nil
  · simp only [he, Bool.false_eq_true, if_false]
    by_cases hs : (symbolsPrepared entries).isEmpty
    · simpa [hs] using symmIrr_nil
    · simp only [hs, Bool.false_eq_true, if_false]
      exact symmIrr_cloneOuter θ _ 0 [] h symmIrr_nil

/-- Concrete witness input for C1: two distinct functions with identical
five-token bodies. -/
def c1entryA : SymbolEntry :=
  { id := "function:a.js#foo", fileId := "file:a.js", name := "foo"
    kind := "function", path := "a.js", language := "JavaScript"
    startLine := 1, endLine := 3, text := "alpha beta gamma delta epsilon" }

def c1entryB : SymbolEntry :=
  { id := "function:b.js#bar", fileId := "file:b.js", name := "bar"
    kind := "function", path := "b.js", language := "JavaScript"
    startLine := 10, endLine := 12, text := "alpha beta gamma delta epsilon" }

theorem clones_symmetric_irreflexive_witness :
    (∀ A B v, entryIn (findSymbolClones [c1entryA, c1entryB] DEFAULT_THRESHOLD) A B v ↔
        entryIn (findSymbolClones [c1entryA, c1entryB] DEFAULT_THRESHOLD) B A v) ∧
      (∀ A v, ¬ entryIn (findSymbolClones [c1entryA, c1entryB] DEFAULT_THRESHOLD) A A v) :=
  clones_symmetric_irreflexive [c1entryA, c1entryB] DEFAULT_THRESHOLD (by decide)

/-! ## C6: the MIN_TOKENS = 5 participation boundary -/

theorem enrichSymbol_id (s : SymbolEntry) (a : EnrichedSym)
    (h : enrichSymbol s = some a) : a.id = s.id := by
  unfold enrichSymbol at h
  by_cases h1 : s.text = "" ∨ s.id = ""
  · rw [if_pos h1] at h; cases h
  · rw [if_neg h1] at h
    by_cases h2 : (tokenizeWithMeta s.text).tokens.length < MIN_TOKENS
    · simp only [h2, if_true] at h
      exact Option.noConfusion h
    · simp only [h2, if_false] at h
      injection h with h
      rw [← h]

theorem enrichSymbol_none_of_small (s : SymbolEntry)
    (h : (tokenizeWithMeta s.text).tokens.length ≤ 4) : enrichSymbol s = none := by
  unfold enrichSymbol
  by_cases h1 : s.text = "" ∨ s.id = ""
  · rw [if_pos h1]
  · rw [if_neg h1]
    have : (tokenizeWithMeta s.text).tokens.length < MIN_TOKENS := by
      unfold MIN_TOKENS; omega
    simp only [this, if_true]

theorem enrichSymbol_some_of_five (s : SymbolEntry)
    (hid : s.id ≠ "") (h : (tokenizeWithMeta s.text).tokens.length = 5) :
    ∃ a, enrichSymbol s = some a ∧ a.id = s.id := by
  have htext : s.text ≠ "" := by
    intro he
    rw [he] at h
    simp [tokenizeWithMeta] at h
  unfold enrichSymbol
  have h1 : ¬ (s.text = "" ∨ s.id = "") := by
    rintro (h2 | h2)
    · exact htext h2
    · exact hid h2
  rw [if_neg h1]
  have h2 : ¬ (tokenizeWithMeta s.text).tokens.length < MIN_TOKENS := by
    unfold MIN_TOKENS; omega
  simp only [h2, if_false]
  exact ⟨_, rfl, rfl⟩

/-- Every key and every target id appearing in a results map is the id of
a symbol in `S`. -/
def entriesFrom (S : List EnrichedSym) (m : ResultMap) : Prop :=
  ∀ k es, lookupR m k = some es →
    (∃ a ∈ S, a.id = k) ∧ ∀ c ∈ es, ∃ a ∈ S, a.id = c.targetId

theorem entriesFrom_nil (S : List EnrichedSym) : entriesFrom S [] := by
  intro k es hes
  simp [lookupR, alistGet] at hes

theorem entriesFrom_pushEntry (S : List EnrichedSym) (m : ResultMap)
    (k : String) (e : CloneEntry) (hm : entriesFrom S m)
    (hk : ∃ a ∈ S, a.id = k) (he : ∃ a ∈ S, a.id = e.targetId) :
    entriesFrom S (pushEntry m k e) := by
  intro k2 es hes
  rw [lookupR_pushEntry] at hes
  by_cases h : k2 = k
  · rw [if_pos h] at hes
    injection hes with hes
    subst h
    refine ⟨hk, ?_⟩
    intro c hc
    rw [← hes] at hc
    rcases List.mem_append.mp hc with hc | hc
    · cases hL : lookupR m k2 with
      | none => rw [hL] at hc; simp at hc
      | some es0 =>
        rw [hL] at hc
        exact (hm k2 es0 hL).2 c hc
    · rw [List.mem_singleton] at hc
      subst hc
      exact he
  · rw [if_neg h] at hes
    exact hm k2 es hes

theorem entriesFrom_addClone (S : List EnrichedSym) (m : ResultMap)
    (a b : EnrichedSym) (sim : ℚ) (r : Option LineRange)
    (hm : entriesFrom S m) (ha : a ∈ S) (hb : b ∈ S) :
    entriesFrom S (addClone m a b sim r) := by
  unfold addClone
  exact entriesFrom_pushEntry S m _ _ hm ⟨a, ha, rfl⟩ ⟨b, hb, rfl⟩

theorem entriesFrom_cloneStep (S : List EnrichedSym) (m : ResultMap)
    (a b : EnrichedSym) (θ : ℚ) (hm : entriesFrom S m) (ha : a ∈ S)
    (hb : b ∈ S) : entriesFrom S (cloneStep a b θ m) := by
  unfold cloneStep
  cases hov : (if hasSharedFingerprints a b then computeSymbolOverlap a b else none) with
  | none =>
    by_cases hth : θ ≤ diceCoefficient a.tokenCounts a.tokenTotal b.tokenCounts b.tokenTotal
    · rw [if_pos hth]
      exact entriesFrom_addClone S _ b a _ _ (entriesFrom_addClone S m a b _ _ hm ha hb) hb ha
    · rw [if_neg hth]; exact hm
  | some o =>
    by_cases hth : θ ≤ max o.similarity
        (diceCoefficient a.tokenCounts a.tokenTotal b.tokenCounts b.tokenTotal)
    · rw [if_pos hth]
      exact entriesFrom_addClone S _ b a _ _ (entriesFrom_addClone S m a b _ _ hm ha hb) hb ha
    · rw [if_neg hth]; exact hm

theorem entriesFrom_cloneInner (S : List EnrichedSym) (a : EnrichedSym) (θ : ℚ) :
    ∀ (rest : List EnrichedSym) (c : Nat) (acc : ResultMap),
      a ∈ S → (∀ b ∈ rest, b ∈ S) → entriesFrom S acc →
        entriesFrom S (cloneInner a θ rest c acc).1
  | [], _, acc, _, _, h => by simpa [cloneInner] using h
  | b :: rest, c, acc, ha, hrest, h => by
    by_cases hc : MAX_PAIRS ≤ c
    · simpa [cloneInner, hc] using h
    · by_cases hl : languagesAreCompatible a.language b.language
      · simpa [cloneInner, hc, hl] using
          entriesFrom_cloneInner S a θ rest (c + 1) (cloneStep a b θ acc) ha
            (fun x hx => hrest x (List.mem_cons_of_mem _ hx))
            (entriesFrom_cloneStep S acc a b θ h ha (hrest b (List.mem_cons_self _ _)))
      · simpa [cloneInner, hc, hl] using
          entriesFrom_cloneInner S a θ rest c acc ha
            (fun x hx => hrest x (List.mem_cons_of_mem _ hx)) h

theorem entriesFrom_cloneOuter (S : List EnrichedSym) (θ : ℚ) :
    ∀ (l : List EnrichedSym) (c : Nat) (acc : ResultMap),
      (∀ b ∈ l, b ∈ S) → entriesFrom S acc → entriesFrom S (cloneOuter θ l c acc)
  | [], _, acc, _, h => by simpa [cloneOuter] using h
  | a :: rest, c, acc, hl, h => by
    simpa [cloneOuter] using
      entriesFrom_cloneOuter S θ rest (cloneInner a θ rest c acc).2
        (cloneInner a θ rest c acc).1
        (fun x hx => hl x (List.mem_cons_of_mem _ hx))
        (entriesFrom_cloneInner S a θ rest c acc (hl a (List.mem_cons_self _ _))
          (fun x hx => hl x (List.mem_cons_of_mem _ hx)) h)

theorem entriesFrom_findSymbolClones (entries : List SymbolEntry) (θ : ℚ) :
    entriesFrom (symbolsPrepared entries) (findSymbolClones entries θ) := by
  unfold findSymbolClones
  by_cases he : entries.isEmpty
  · simpa [he] using entriesFrom_nil _
  · simp only [he, Bool.false_eq_true, if_false]
    by_cases hs : (symbolsPrepared entries).isEmpty
    · simpa [hs] using entriesFrom_nil _
    · simp only [hs, Bool.false_eq_true, if_false]
      exact entriesFrom_cloneOuter _ θ _ 0 [] (fun x hx => hx) (entriesFrom_nil _)

/-- C6.  A function-like symbol whose preparation yields exactly 5 tokens
participates in clone detection (it appears in the prepared comparison
list), while one yielding at most 4 tokens is rejected: if no other entry
shares its id, its id occurs in the `findSymbolClones` results neither as
a key nor as a target. -/
theorem min_tokens_boundary (entries : List SymbolEntry) (e : SymbolEntry)
    (θ : ℚ) (he : e ∈ entries) :
    ((tokenizeWithMeta e.text).tokens.length = 5 → isFunctionLike e →
       e.id ≠ "" → ∃ a ∈ symbolsPrepared entries, a.id = e.id) ∧
    ((tokenizeWithMeta e.text).tokens.length ≤ 4 →
       (∀ e2 ∈ entries, e2.id = e.id → e2 = e) →
       lookupR (findSymbolClones entries θ) e.id = none ∧
         ∀ k es, lookupR (findSymbolClones entries θ) k = some es →
           ∀ c ∈ es, c.targetId ≠ e.id) := by
  constructor
  · intro h5 hfl hid
    obtain ⟨a, ha, haid⟩ := enrichSymbol_some_of_five e hid h5
    refine ⟨a, ?_, haid⟩
    exact List.mem_filterMap.mpr ⟨e, List.mem_filter.mpr ⟨he, hfl⟩, ha⟩
  · intro h4 huniq
    have hnotin : ∀ a ∈ symbolsPrepared entries, a.id ≠ e.id := by
      intro a ha haid
      obtain ⟨e2, he2, henr⟩ := List.mem_filterMap.mp ha
      have he2id : e2.id = e.id := (enrichSymbol_id e2 a henr) ▸ haid
      have : e2 = e := huniq e2 (List.mem_filter.mp he2).1 he2id
      subst this
      rw [enrichSymbol_none_of_small e2 h4] at henr
      cases henr
    have hfrom := entriesFrom_findSymbolClones entries θ
    constructor
    · cases hL : lookupR (findSymbolClones entries θ) e.id with
      | none => rfl
      | some es =>
        obtain ⟨⟨a, ha, haid⟩, -⟩ := hfrom e.id es hL
        exact absurd haid (hnotin a ha)
    · intro k es hes c hc hcid
      obtain ⟨-, htg⟩ := hfrom k es hes
      obtain ⟨a, ha, haid⟩ := htg c hc
      exact hnotin a ha (haid.trans hcid)

/-- Concrete witness input for C6: a five-token function and a four-token
function. -/
def c6entry5 : SymbolEntry :=
  { id := "function:u.js#f5", fileId := "file:u.js", name := "f5"
    kind := "function", path := "u.js", language := "JavaScript"
    startLine := 1, endLine := 1, text := "a b c d e" }

def c6entry4 : SymbolEntry :=
  { id := "function:u.js#f4", fileId := "file:u.js", name := "f4"
    kind := "function", path := "u.js", language := "JavaScript"
    startLine := 2, endLine := 2, text := "a b c d" }

theorem min_tokens_boundary_witness :
    ((tokenizeWithMeta c6entry5.text).tokens.length = 5 ∧
      ∃ a ∈ symbolsPrepared [c6entry5, c6entry4], a.id = c6entry5.id) ∧
    ((tokenizeWithMeta c6entry4.text).tokens.length ≤ 4 ∧
      lookupR (findSymbolClones [c6entry5, c6entry4] DEFAULT_THRESHOLD) c6entry4.id = none ∧
        ∀ k es, lookupR (findSymbolClones [c6entry5, c6entry4] DEFAULT_THRESHOLD) k = some es →
          ∀ c ∈ es, c.targetId ≠ c6entry4.id) := by
  constructor
  · exact ⟨by decide,
      (min_tokens_boundary [c6entry5, c6entry4] c6entry5 DEFAULT_THRESHOLD
        (by decide)).1 (by decide) (by decide) (by decide)⟩
  · exact ⟨by decide,
      (min_tokens_boundary [c6entry5, c6entry4] c6entry4 DEFAULT_THRESHOLD
        (by decide)).2 (by decide) (by decide)⟩

/-! ## C3: winnowing against its reference specification -/

theorem HashIdx.ext2 {x y : HashIdx} (h1 : x.hash = y.hash)
    (h2 : x.index = y.index) : x = y := by
  cases x; cases y; simp_all

theorem beat_irrefl (x : HashIdx) : beat x x = false := by
  simp [beat]

theorem notbeat_iff {x y : HashIdx} :
    beat x y = false ↔ (y.hash < x.hash ∨ (y.hash = x.hash ∧ x.index ≤ y.index)) := by
  simp only [beat, Bool.or_eq_false_iff, Bool.and_eq_false_iff, decide_eq_false_iff_not,
    Nat.not_lt, beq_eq_false_iff_ne, ne_eq, Bool.or_eq_true, Bool.and_eq_true,
    decide_eq_true_eq, beq_iff_eq]
  constructor
  · rintro ⟨h1, h2 | h2⟩ <;> omega
  · intro h
    constructor <;> omega

theorem beat_iff {x y : HashIdx} :
    beat x y = true ↔ (x.hash < y.hash ∨ (x.hash = y.hash ∧ y.index < x.index)) := by
  simp [beat]

theorem beat_asymm {x y : HashIdx} (h : beat x y = true) : beat y x = false := by
  rw [beat_iff] at h
  rw [notbeat_iff]
  omega

theorem notbeat_trans {x y z : HashIdx} (h1 : beat x y = false)
    (h2 : beat y z = false) : beat x z = false := by
  rw [notbeat_iff] at h1 h2 ⊢
  omega

theorem beat_trans {x y z : HashIdx} (h1 : beat x y = true)
    (h2 : beat y z = true) : beat x z = true := by
  rw [beat_iff] at h1 h2 ⊢
  omega

theorem notbeat_antisymm {x y : HashIdx} (h1 : beat x y = false)
    (h2 : beat y x = false) : x = y := by
  rw [notbeat_iff] at h1 h2
  exact HashIdx.ext2 (by omega) (by omega)

/-- The window of `w` consecutive hashes starting at position `s`. -/
def window (hs : List HashIdx) (w s : Nat) : List HashIdx := (hs.drop s).take w

/-- The reference minimum of a hash window: the JS
`reduce((best, current) => ..., null)` selection, i.e. the least hash,
ties broken by the latest index. -/
def minLatest : List HashIdx → Option HashIdx
  | [] => none
  | h :: t => some (t.foldl pickMin h)

/-- `m` is the minimum of `l` with ties broken by the latest index. -/
def isMinLatest (l : List HashIdx) (m : HashIdx) : Prop :=
  m ∈ l ∧ ∀ x ∈ l, m.hash < x.hash ∨ (m.hash = x.hash ∧ x.index ≤ m.index)

/-- Remove elements equal to the most recently kept element
(adjacent-duplicate suppression, the reference reading of
`pushFingerprint`). -/
def dedupAdjAux (last : HashIdx) : List HashIdx → List HashIdx
  | [] => []
  | c :: t => if c = last then dedupAdjAux last t else c :: dedupAdjAux c t

def dedupAdj : List HashIdx → List HashIdx
  | [] => []
  | h :: t => h :: dedupAdjAux h t

/-- The reference minimum of window `s` as a value. -/
def bestVal (hs : List HashIdx) (w s : Nat) : HashIdx :=
  (minLatest (window hs w s)).getD default

/-- The per-window reference minima, one per sliding-window position. -/
def windowMins (hs : List HashIdx) (w : Nat) : List HashIdx :=
  (List.range (hs.length + 1 - w)).map (bestVal hs w)

theorem foldl_pickMin_mem : ∀ (t : List HashIdx) (h : HashIdx),
    t.foldl pickMin h ∈ h :: t
  | [], h => List.mem_singleton_self h
  | a :: t, h => by
    have ih := foldl_pickMin_mem t (pickMin h a)
    simp only [List.foldl_cons]
    rcases List.mem_cons.mp ih with hm | hm
    · rw [hm]
      unfold pickMin
      by_cases hb : beat a h = true
      · simp [hb]
      · simp [hb]
    · exact List.mem_cons_of_mem _ (List.mem_cons_of_mem _ hm)

theorem foldl_pickMin_notbeat : ∀ (t : List HashIdx) (h : HashIdx),
    ∀ x ∈ h :: t, beat x (t.foldl pickMin h) = false
  | [], h => by
    intro x hx
    rw [List.mem_singleton] at hx
    subst hx
    exact beat_irrefl x
  | a :: t, h => by
    intro x hx
    have ih := foldl_pickMin_notbeat t (pickMin h a)
    have hwin := ih _ (List.mem_cons_self _ _)
    have hha : beat h (pickMin h a) = false ∧ beat a (pickMin h a) = false := by
      unfold pickMin
      by_cases hb : beat a h = true
      · simp only [hb, if_true]
        exact ⟨beat_asymm hb, beat_irrefl a⟩
      · simp only [hb, if_false]
        exact ⟨beat_irrefl h, by simpa using hb⟩
    simp only [List.foldl_cons]
    rcases List.mem_cons.mp hx with hx | hx
    · subst hx
      exact notbeat_trans hha.1 hwin
    · rcases List.mem_cons.mp hx with hx | hx
      · subst hx
        exact notbeat_trans hha.2 hwin
      · exact ih x (List.mem_cons_of_mem _ hx)

theorem minLatest_isMinLatest {l : List HashIdx} (h : l ≠ []) :
    ∃ m, minLatest l = some m ∧ isMinLatest l m := by
  cases l with
  | nil => exact absurd rfl h
  | cons a t =>
    refine ⟨t.foldl pickMin a, rfl, foldl_pickMin_mem t a, ?_⟩
    intro x hx
    have := foldl_pickMin_notbeat t a x hx
    rw [notbeat_iff] at this
    exact this

theorem minLatest_eq_of_isMinLatest {l : List HashIdx} {m : HashIdx}
    (h : isMinLatest l m) : minLatest l = some m := by
  have hne : l ≠ [] := fun he => by
    rw [he] at h
    exact absurd h.1 (List.not_mem_nil m)
  obtain ⟨m2, hm2, hmem2, hall2⟩ := minLatest_isMinLatest hne
  have h1 : beat m m2 = false := by
    rw [notbeat_iff]
    exact hall2 m h.1
  have h2 : beat m2 m = false := by
    rw [notbeat_iff]
    exact h.2 m2 hmem2
  rw [hm2, notbeat_antisymm h2 h1]

theorem window_eq_map_range' (hs : List HashIdx) :
    ∀ (w s : Nat), s + w ≤ hs.length →
      window hs w s = (List.range' s w).map (fun i => hs.getD i default)
  | 0, s, _ => by simp [window]
  | w + 1, s, h => by
    have hlt : s < hs.length := by omega
    have hdrop := List.drop_eq_getElem_cons hlt
    have hrec := window_eq_map_range' hs w (s + 1) (by omega)
    unfold window
    rw [hdrop, List.take_succ_cons]
    have hr : List.range' s (w + 1) = s :: List.range' (s + 1) w := List.range'_succ s w 1
    rw [hr, List.map_cons, List.getD_eq_getElem hs default hlt,
      show (hs.drop (s + 1)).take w = window hs w (s + 1) from rfl, hrec]

theorem scanMinPos_mem (hs : List HashIdx) :
    ∀ (ps : List Nat) (mi : Nat), scanMinPos hs mi ps ∈ mi :: ps
  | [], mi => List.mem_singleton_self mi
  | i :: ps, mi => by
    have ih := scanMinPos_mem hs ps (if beat (hs.getD i default) (hs.getD mi default) then i else mi)
    simp only [scanMinPos]
    rcases List.mem_cons.mp ih with hm | hm
    · rw [hm]
      by_cases hb : beat (hs.getD i default) (hs.getD mi default) = true
      · simp only [hb, if_true]
        exact List.mem_cons_of_mem _ (List.mem_cons_self _ _)
      · simp only [hb, if_false]
        exact List.mem_cons_self _ _
    · exact List.mem_cons_of_mem _ (List.mem_cons_of_mem _ hm)

theorem scanMinPos_notbeat (hs : List HashIdx) :
    ∀ (ps : List Nat) (mi : Nat), ∀ j ∈ mi :: ps,
      beat (hs.getD j default) (hs.getD (scanMinPos hs mi ps) default) = false
  | [], mi => by
    intro j hj
    rw [List.mem_singleton] at hj
    subst hj
    exact beat_irrefl _
  | i :: ps, mi => by
    intro j hj
    have ih := scanMinPos_notbeat hs ps
      (if beat (hs.getD i default) (hs.getD mi default) then i else mi)
    have hwin := ih _ (List.mem_cons_self _ _)
    have hmi : beat (hs.getD mi default)
        (hs.getD (if beat (hs.getD i default) (hs.getD mi default) then i else mi) default)
          = false ∧
        beat (hs.getD i default)
        (hs.getD (if beat (hs.getD i default) (hs.getD mi default) then i else mi) default)
          = false := by
      by_cases hb : beat (hs.getD i default) (hs.getD mi default) = true
      · simp only [hb, if_true]
        exact ⟨beat_asymm hb, beat_irrefl _⟩
      · simp only [hb, if_false]
        exact ⟨beat_irrefl _, by simpa using hb⟩
    simp only [scanMinPos]
    rcases List.mem_cons.mp hj with hj | hj
    · subst hj
      exact notbeat_trans hmi.1 hwin
    · rcases List.mem_cons.mp hj with hj | hj
      · subst hj
        exact notbeat_trans hmi.2 hwin
      · exact ih j (List.mem_cons_of_mem _ hj)

/-- The rescan of window `s` returns a position in `[s, s+w-1]` whose
value is the reference minimum of that window. -/
theorem scanMinPos_bestVal (hs : List HashIdx) (w s : Nat) (hw : 1 ≤ w)
    (hle : s + w ≤ hs.length) :
    let p := scanMinPos hs s (List.range' s w)
    s ≤ p ∧ p ≤ s + w - 1 ∧ hs.getD p default = bestVal hs w s := by
  intro p
  have hmem : p ∈ s :: List.range' s w := scanMinPos_mem hs _ s
  have hrange : s ≤ p ∧ p ≤ s + w - 1 := by
    rcases List.mem_cons.mp hmem with hm | hm
    · omega
    · rw [List.mem_range'_1] at hm
      omega
  refine ⟨hrange.1, hrange.2, ?_⟩
  have hwnd := window_eq_map_range' hs w s hle
  have hpmem : p ∈ List.range' s w := by
    rw [List.mem_range'_1]
    omega
  have hvmem : hs.getD p default ∈ window hs w s := by
    rw [hwnd]
    exact List.mem_map.mpr ⟨p, hpmem, rfl⟩
  have hmin : isMinLatest (window hs w s) (hs.getD p default) := by
    refine ⟨hvmem, ?_⟩
    intro x hx
    rw [hwnd] at hx
    obtain ⟨j, hj, rfl⟩ := List.mem_map.mp hx
    have := scanMinPos_notbeat hs (List.range' s w) s j (List.mem_cons_of_mem _ hj)
    rw [notbeat_iff] at this
    exact this
  rw [bestVal, minLatest_eq_of_isMinLatest hmin]
  rfl

/-- Sliding the window one step right when the tracked minimum stays
inside: compare only the entering element. -/
theorem bestVal_step (hs : List HashIdx) (w s p : Nat) (hw : 1 ≤ w)
    (hs1 : 1 ≤ s) (hle : s + w ≤ hs.length) (hp1 : s ≤ p) (hp2 : p + 2 ≤ s + w)
    (hbest : hs.getD p default = bestVal hs w (s - 1)) :
    bestVal hs w s =
      if beat (hs.getD (s + w - 1) default) (hs.getD p default) then
        hs.getD (s + w - 1) default
      else hs.getD p default := by
  have hleprev : (s - 1) + w ≤ hs.length := by omega
  have hwndprev := window_eq_map_range' hs w (s - 1) hleprev
  have hwnd := window_eq_map_range' hs w s hle
  obtain ⟨mprev, hmprev, hmemprev, hallprev⟩ :=
    minLatest_isMinLatest (l := window hs w (s - 1)) (by
      rw [hwndprev]
      intro hcon
      have := congrArg List.length hcon
      simp [List.length_range'] at this
      omega)
  have hbestprev : bestVal hs w (s - 1) = mprev := by rw [bestVal, hmprev]; rfl
  have holdall : ∀ j, s - 1 ≤ j → j + 1 ≤ s + w - 1 →
      beat (hs.getD j default) (hs.getD p default) = false := by
    intro j hj1 hj2
    rw [hbest, hbestprev]
    have hmemw : hs.getD j default ∈ window hs w (s - 1) := by
      rw [hwndprev]
      refine List.mem_map.mpr ⟨j, ?_, rfl⟩
      rw [List.mem_range'_1]
      omega
    have := hallprev _ hmemw
    rw [← notbeat_iff] at this
    exact this
  have hpinw : hs.getD p default ∈ window hs w s := by
    rw [hwnd]
    refine List.mem_map.mpr ⟨p, ?_, rfl⟩
    rw [List.mem_range'_1]
    omega
  have hnextinw : hs.getD (s + w - 1) default ∈ window hs w s := by
    rw [hwnd]
    refine List.mem_map.mpr ⟨s + w - 1, ?_, rfl⟩
    rw [List.mem_range'_1]
    omega
  by_cases hb : beat (hs.getD (s + w - 1) default) (hs.getD p default) = true
  · rw [if_pos hb]
    have hmin : isMinLatest (window hs w s) (hs.getD (s + w - 1) default) := by
      refine ⟨hnextinw, ?_⟩
      intro x hx
      rw [hwnd] at hx
      obtain ⟨j, hj, rfl⟩ := List.mem_map.mp hx
      rw [List.mem_range'_1] at hj
      rw [← notbeat_iff]
      by_cases hjlast : j = s + w - 1
      · subst hjlast
        exact beat_irrefl _
      · have hjold : beat (hs.getD j default) (hs.getD p default) = false :=
          holdall j (by omega) (by omega)
        by_cases hcon : beat (hs.getD j default) (hs.getD (s + w - 1) default) = true
        · exact absurd (beat_trans hcon hb) (by rw [hjold]; exact Bool.false_ne_true)
        · simpa using hcon
    rw [bestVal, minLatest_eq_of_isMinLatest hmin]
    rfl
  · rw [if_neg hb]
    have hmin : isMinLatest (window hs w s) (hs.getD p default) := by
      refine ⟨hpinw, ?_⟩
      intro x hx
      rw [hwnd] at hx
      obtain ⟨j, hj, rfl⟩ := List.mem_map.mp hx
      rw [List.mem_range'_1] at hj
      rw [← notbeat_iff]
      by_cases hjlast : j = s + w - 1
      · subst hjlast
        simpa using hb
      · exact holdall j (by omega) (by omega)
    rw [bestVal, minLatest_eq_of_isMinLatest hmin]
    rfl


/-- The last element of a list, with a default: the value the
adjacent-duplicate check compares against. -/
def lastD : List HashIdx → HashIdx → HashIdx
  | [], d => d
  | h :: t, _ => lastD t h

theorem getLast?_eq_lastD : ∀ (l : List HashIdx) (a : HashIdx),
    (a :: l).getLast? = some (lastD l a)
  | [], _ => rfl
  | b :: t, a => by
    rw [List.getLast?_cons_cons]
    exact getLast?_eq_lastD t b

theorem dedupAdjAux_lastD : ∀ (t : List HashIdx) (last : HashIdx),
    lastD (dedupAdjAux last t) last = lastD t last
  | [], _ => rfl
  | c :: t, last => by
    by_cases h : c = last
    · simp only [dedupAdjAux, if_pos h, lastD]
      rw [dedupAdjAux_lastD t last, h]
    · simp only [dedupAdjAux, if_neg h, lastD]
      exact dedupAdjAux_lastD t c

theorem dedupAdj_getLast? : ∀ (l : List HashIdx), (dedupAdj l).getLast? = l.getLast?
  | [] => rfl
  | h :: t => by
    simp only [dedupAdj]
    rw [getLast?_eq_lastD, getLast?_eq_lastD, dedupAdjAux_lastD t h]

theorem dedupAdjAux_snoc : ∀ (t : List HashIdx) (last c : HashIdx),
    dedupAdjAux last (t ++ [c]) =
      if c = lastD t last then dedupAdjAux last t
      else dedupAdjAux last t ++ [c]
  | [], last, c => by
    simp [dedupAdjAux, lastD]
  | x :: t, last, c => by
    show dedupAdjAux last (x :: (t ++ [c])) = _
    by_cases h : x = last
    · simp only [dedupAdjAux, if_pos h, lastD]
      rw [dedupAdjAux_snoc t last c, h]
    · simp only [dedupAdjAux, if_neg h, lastD]
      rw [dedupAdjAux_snoc t x c]
      by_cases h2 : c = lastD t x
      · simp [h2]
      · simp [h2]

theorem dedupAdj_snoc : ∀ (l : List HashIdx) (c : HashIdx),
    dedupAdj (l ++ [c]) =
      if l.getLast? = some c then dedupAdj l else dedupAdj l ++ [c]
  | [], c => by
    simp [dedupAdj, dedupAdjAux]
  | h :: t, c => by
    show dedupAdj (h :: (t ++ [c])) = _
    simp only [dedupAdj]
    rw [dedupAdjAux_snoc t h c, getLast?_eq_lastD]
    by_cases h2 : c = lastD t h
    · rw [if_pos h2, if_pos (by rw [h2])]
    · rw [if_neg h2, if_neg (fun hcon => h2 (Option.some_inj.mp hcon).symm)]
      simp

theorem pushFingerprint_dedupAdj (l : List HashIdx) (c : HashIdx) :
    pushFingerprint (dedupAdj l) c = dedupAdj (l ++ [c]) := by
  rw [dedupAdj_snoc]
  unfold pushFingerprint
  rw [dedupAdj_getLast?]
  cases hL : l.getLast? with
  | none => simp
  | some prev =>
    by_cases h : prev = c
    · subst h
      simp
    · simp [h]

theorem rangeMap_getLast? (hs : List HashIdx) (w n : Nat) (hn : 1 ≤ n) :
    ((List.range n).map (bestVal hs w)).getLast? = some (bestVal hs w (n - 1)) := by
  obtain ⟨m, rfl⟩ : ∃ m, n = m + 1 := ⟨n - 1, by omega⟩
  rw [List.range_succ, List.map_append]
  simp

theorem rangeMap_succ (hs : List HashIdx) (w n : Nat) :
    (List.range (n + 1)).map (bestVal hs w) =
      (List.range n).map (bestVal hs w) ++ [bestVal hs w n] := by
  rw [List.range_succ, List.map_append]
  rfl

/-- The main loop of `winnow` computes the adjacent-deduplicated sequence
of per-window reference minima.  The invariant: `fps` holds the deduped
minima of the `ws` already-processed windows, and whenever the tracked
`minIdx` is still inside the current window it points at the reference
minimum of the previous window. -/
theorem winnowLoop_correct (hs : List HashIdx) (w : Nat) (hw : 1 ≤ w) :
    ∀ (r ws : Nat) (minIdx : Int) (fps : List HashIdx),
      ws + (w - 1) + r = hs.length →
      fps = dedupAdj ((List.range ws).map (bestVal hs w)) →
      ((ws : Int) ≤ minIdx →
        1 ≤ ws ∧ 0 ≤ minIdx ∧ minIdx.toNat + 2 ≤ ws + w ∧
          hs.getD minIdx.toNat default = bestVal hs w (ws - 1)) →
      winnowLoop hs w r ws minIdx fps =
        dedupAdj ((List.range (ws + r)).map (bestVal hs w))
  | 0, ws, minIdx, fps, _, hfps, _ => by simpa [winnowLoop] using hfps
  | r + 1, ws, minIdx, fps, harith, hfps, hinv => by
    have hle : ws + w ≤ hs.length := by omega
    simp only [winnowLoop]
    by_cases hc : minIdx < (ws : Int)
    · rw [if_pos hc]
      obtain ⟨hp1, hp2, hpval⟩ := scanMinPos_bestVal hs w ws hw hle
      have hrec := winnowLoop_correct hs w hw r (ws + 1)
        ((scanMinPos hs ws (List.range' ws w) : Nat) : Int)
        (pushFingerprint fps (hs.getD (scanMinPos hs ws (List.range' ws w)) default))
        (by omega)
        (by
          rw [hfps, hpval, pushFingerprint_dedupAdj, ← rangeMap_succ])
        (by
          intro _
          refine ⟨by omega, by omega, ?_, ?_⟩
          · rw [Int.toNat_natCast]
            omega
          · rw [Int.toNat_natCast]
            simpa using hpval)
      rw [hrec]
      have harw : ws + 1 + r = ws + (r + 1) := by omega
      rw [harw]
    · rw [if_neg hc]
      have hge : (ws : Int) ≤ minIdx := by omega
      obtain ⟨hws1, hmn0, hm2, hmval⟩ := hinv hge
      have hpge : ws ≤ minIdx.toNat := by omega
      have hstep := bestVal_step hs w ws minIdx.toNat hw hws1 hle hpge (by omega) hmval
      by_cases hb : beat (hs.getD (ws + w - 1) default) (hs.getD minIdx.toNat default) = true
      · rw [if_pos hb]
        have hbv : bestVal hs w ws = hs.getD (ws + w - 1) default := by
          rw [hstep, if_pos hb]
        have hrec := winnowLoop_correct hs w hw r (ws + 1) ((ws + w - 1 : Nat) : Int)
          (pushFingerprint fps (hs.getD (ws + w - 1) default))
          (by omega)
          (by
            rw [hfps, ← hbv, pushFingerprint_dedupAdj, ← rangeMap_succ])
          (by
            intro _
            refine ⟨by omega, by omega, ?_, ?_⟩
            · rw [Int.toNat_natCast]
              omega
            · rw [Int.toNat_natCast]
              simpa using hbv.symm)
        rw [hrec]
        have harw : ws + 1 + r = ws + (r + 1) := by omega
        rw [harw]
      · rw [if_neg hb]
        have hbv : bestVal hs w ws = hs.getD minIdx.toNat default := by
          rw [hstep, if_neg hb]
        have hrec := winnowLoop_correct hs w hw r (ws + 1) minIdx fps
          (by omega)
          (by
            rw [hfps, rangeMap_succ, dedupAdj_snoc,
              if_pos (by
                rw [rangeMap_getLast? hs w ws hws1, hbv, hmval])])
          (by
            intro _
            refine ⟨by omega, hmn0, by omega, ?_⟩
            rw [hbv.symm]
            simp)
        rw [hrec]
        have harw : ws + 1 + r = ws + (r + 1) := by omega
        rw [harw]

theorem winnow_large (hs : List HashIdx) (w : Nat) (hw : 1 ≤ w)
    (hgt : w < hs.length) : winnow hs w = dedupAdj (windowMins hs w) := by
  have hne : hs.isEmpty = false := by
    cases hs with
    | nil => simp at hgt
    | cons a t => rfl
  have hwz : (w == 0) = false := by
    simp only [beq_eq_false_iff_ne, ne_eq]
    omega
  unfold winnow
  rw [hne, hwz]
  simp only [Bool.or_self, Bool.false_eq_true, if_false]
  rw [if_neg (by omega)]
  have hmain := winnowLoop_correct hs w hw (hs.length - (w - 1)) 0 (-1) []
    (by omega) (by simp [dedupAdj]) (by intro hcon; omega)
  rw [hmain]
  unfold windowMins
  have harw : 0 + (hs.length - (w - 1)) = hs.length + 1 - w := by omega
  rw [harw]

theorem winnow_small (hs : List HashIdx) (w : Nat) (hne : hs ≠ [])
    (hw : 1 ≤ w) (hle : hs.length ≤ w) :
    ∃ m, winnow hs w = [m] ∧ isMinLatest hs m := by
  obtain ⟨m, hm, hmin⟩ := minLatest_isMinLatest hne
  refine ⟨m, ?_, hmin⟩
  unfold winnow
  have hne2 : hs.isEmpty = false := by
    cases hs with
    | nil => exact absurd rfl hne
    | cons a t => rfl
  have hwz : (w == 0) = false := by
    simp only [beq_eq_false_iff_ne, ne_eq]
    omega
  rw [hne2, hwz]
  simp only [Bool.or_self, Bool.false_eq_true, if_false]
  rw [if_pos hle]
  cases hs with
  | nil => exact absurd rfl hne
  | cons a t =>
    simp only [minLatest, Option.some_inj] at hm
    show [List.foldl pickMin a t] = [m]
    rw [hm]

theorem window_nonempty (hs : List HashIdx) (w s : Nat) (hw : 1 ≤ w)
    (hle : s + w ≤ hs.length) : window hs w s ≠ [] := by
  rw [window_eq_map_range' hs w s hle]
  intro hcon
  have := congrArg List.length hcon
  simp [List.length_range'] at this
  omega

theorem bestVal_isMinLatest (hs : List HashIdx) (w s : Nat) (hw : 1 ≤ w)
    (hle : s + w ≤ hs.length) : isMinLatest (window hs w s) (bestVal hs w s) := by
  obtain ⟨m, hm, hmin⟩ := minLatest_isMinLatest (window_nonempty hs w s hw hle)
  rw [bestVal, hm]
  exact hmin

/-- C3 (amended).  Winnowing with window size 4 over a NONEMPTY hash
sequence: for every position of the sliding window the emitted
fingerprint is the minimum hash of that window with ties broken by the
latest (largest) index, adjacent duplicates suppressed; when the sequence
has length at most 4 exactly one fingerprint is emitted, the global
minimum under the same tie-break.  The output is a deterministic function
of the input (the final conjunct, immediate in a functional model).  The
unamended claim fails only at the empty sequence, which produces no
fingerprint (see the counterexample theorem). -/
theorem winnow_window4_reference (hs : List HashIdx) (hne : hs ≠ []) :
    (hs.length ≤ 4 → ∃ m, winnow hs 4 = [m] ∧ isMinLatest hs m) ∧
    (4 < hs.length →
      winnow hs 4 = dedupAdj (windowMins hs 4) ∧
      ∀ s, s + 4 ≤ hs.length → isMinLatest (window hs 4 s) (bestVal hs 4 s)) ∧
    (∀ hs2, hs2 = hs → winnow hs2 4 = winnow hs 4) := by
  refine ⟨?_, ?_, ?_⟩
  · intro hle
    exact winnow_small hs 4 hne (by omega) hle
  · intro hgt
    refine ⟨winnow_large hs 4 (by omega) hgt, ?_⟩
    intro s hsle
    exact bestVal_isMinLatest hs 4 s (by omega) hsle
  · intro hs2 h
    rw [h]

/-- C3 counterexample: the empty hash sequence has length at most 4, yet
`winnow` emits no fingerprint at all rather than exactly one. -/
theorem winnow_empty_no_fingerprint :
    winnow ([] : List HashIdx) 4 = [] ∧ ([] : List HashIdx).length ≤ 4 :=
  ⟨rfl, by decide⟩

/-- Witness for the amended C3 at a concrete six-hash input (both a
length-5 prefix for the small case and the full sliding case are
exercised through the two instantiations). -/
theorem winnow_window4_reference_witness :
    (([⟨5, 0⟩, ⟨3, 1⟩, ⟨3, 2⟩, ⟨7, 3⟩, ⟨2, 4⟩, ⟨9, 5⟩] : List HashIdx) ≠ [] ∧
      (([⟨5, 0⟩, ⟨3, 1⟩, ⟨3, 2⟩, ⟨7, 3⟩, ⟨2, 4⟩, ⟨9, 5⟩] : List HashIdx).length ≤ 4 →
        ∃ m, winnow [⟨5, 0⟩, ⟨3, 1⟩, ⟨3, 2⟩, ⟨7, 3⟩, ⟨2, 4⟩, ⟨9, 5⟩] 4 = [m] ∧
          isMinLatest [⟨5, 0⟩, ⟨3, 1⟩, ⟨3, 2⟩, ⟨7, 3⟩, ⟨2, 4⟩, ⟨9, 5⟩] m) ∧
      (4 < ([⟨5, 0⟩, ⟨3, 1⟩, ⟨3, 2⟩, ⟨7, 3⟩, ⟨2, 4⟩, ⟨9, 5⟩] : List HashIdx).length →
        winnow [⟨5, 0⟩, ⟨3, 1⟩, ⟨3, 2⟩, ⟨7, 3⟩, ⟨2, 4⟩, ⟨9, 5⟩] 4 =
          dedupAdj (windowMins [⟨5, 0⟩, ⟨3, 1⟩, ⟨3, 2⟩, ⟨7, 3⟩, ⟨2, 4⟩, ⟨9, 5⟩] 4) ∧
        ∀ s, s + 4 ≤ ([⟨5, 0⟩, ⟨3, 1⟩, ⟨3, 2⟩, ⟨7, 3⟩, ⟨2, 4⟩, ⟨9, 5⟩] : List HashIdx).length →
          isMinLatest (window [⟨5, 0⟩, ⟨3, 1⟩, ⟨3, 2⟩, ⟨7, 3⟩, ⟨2, 4⟩, ⟨9, 5⟩] 4 s)
            (bestVal [⟨5, 0⟩, ⟨3, 1⟩, ⟨3, 2⟩, ⟨7, 3⟩, ⟨2, 4⟩, ⟨9, 5⟩] 4 s)) ∧
      (∀ hs2, hs2 = ([⟨5, 0⟩, ⟨3, 1⟩, ⟨3, 2⟩, ⟨7, 3⟩, ⟨2, 4⟩, ⟨9, 5⟩] : List HashIdx) →
        winnow hs2 4 = winnow [⟨5, 0⟩, ⟨3, 1⟩, ⟨3, 2⟩, ⟨7, 3⟩, ⟨2, 4⟩, ⟨9, 5⟩] 4)) :=
  ⟨by decide, winnow_window4_reference _ (by decide)⟩

/-! ## C2: final similarity, threshold and rounding of a compared pair -/

/-- The Dice coefficient as the specification states it:
`2 · Σ min(countA, countB) / (|A| + |B|)` over the token multisets. -/
def diceSpec (tA tB : List String) : ℚ :=
  2 * ((Multiset.ofList tA ∩ Multiset.ofList tB).card : ℚ) /
    ((tA.length : ℚ) + (tB.length : ℚ))

/-- The merged-segment overlap similarity of a compared pair, taken as 0
when the pair shares no fingerprint or produces no extended match. -/
def segOverlapSim (a b : EnrichedSym) : ℚ :=
  match (if hasSharedFingerprints a b then computeSymbolOverlap a b else none) with
  | some o => o.similarity
  | none => 0

theorem bumpCount_lookup (t : String) : ∀ (m : List (String × Nat)) (k : String),
    alistGet (bumpCount t m) k =
      if k = t then some ((alistGet m t).getD 0 + 1) else alistGet m k
  | [], k => by
    by_cases h : k = t
    · subst h
      simp [bumpCount, alistGet]
    · have h2 : ¬ t = k := fun hh => h hh.symm
      simp [bumpCount, alistGet, h, h2]
  | (k2, v) :: rest, k => by
    by_cases h2 : k2 = t
    · subst h2
      by_cases h : k = k2
      · subst h
        simp [bumpCount, alistGet]
      · have h' : ¬ k2 = k := fun hh => h hh.symm
        simp [bumpCount, alistGet, h, h']
    · by_cases hk : k2 = k
      · subst hk
        have hkt : ¬ k2 = t := h2
        simp [bumpCount, alistGet, hkt, fun hh : k2 = t => h2 hh]
      · simp only [bumpCount, if_neg h2, alistGet, if_neg hk]
        rw [bumpCount_lookup t rest k]

theorem foldl_bump_lookup : ∀ (l : List String) (m : List (String × Nat)) (k : String),
    alistGet (l.foldl (fun m t => bumpCount t m) m) k =
      match alistGet m k with
      | some c => some (c + l.count k)
      | none => if l.count k = 0 then none else some (l.count k)
  | [], m, k => by
    cases h : alistGet m k <;> simp [h]
  | t :: rest, m, k => by
    simp only [List.foldl_cons]
    rw [foldl_bump_lookup rest (bumpCount t m) k, bumpCount_lookup t m k]
    by_cases h : k = t
    · subst h
      rw [if_pos rfl, List.count_cons_self]
      cases hm : alistGet m k with
      | none =>
        show some (0 + 1 + rest.count k) =
          (if rest.count k + 1 = 0 then none else some (rest.count k + 1))
        rw [if_neg (by omega)]
        congr 1
        omega
      | some c =>
        show some (c + 1 + rest.count k) = some (c + (rest.count k + 1))
        congr 1
        omega
    · rw [if_neg h]
      have h' : ¬ t = k := fun hh => h hh.symm
      have hcnt : (t :: rest).count k = rest.count k := by
        simp [List.count_cons, h, h']
      rw [hcnt]

theorem btc_lookup (l : List String) (k : String) :
    alistGet (buildTokenCounts l) k =
      if l.count k = 0 then none else some (l.count k) := by
  have h := foldl_bump_lookup l [] k
  simpa [buildTokenCounts, alistGet] using h

theorem alistGet_none_iff {α : Type} (m : List (String × α)) (k : String) :
    alistGet m k = none ↔ k ∉ m.map Prod.fst := by
  induction m with
  | nil => simp [alistGet]
  | cons p rest ih =>
    obtain ⟨k2, v⟩ := p
    by_cases h : k2 = k
    · subst h
      simp [alistGet]
    · simp only [alistGet, if_neg h, List.map_cons, List.mem_cons]
      rw [ih]
      constructor
      · rintro hn (hc | hc)
        · exact h hc.symm
        · exact hn hc
      · intro hn hc
        exact hn (Or.inr hc)

theorem mem_of_alistGet {α : Type} {m : List (String × α)} {k : String} {v : α}
    (h : alistGet m k = some v) : (k, v) ∈ m := by
  induction m with
  | nil => simp [alistGet] at h
  | cons p rest ih =>
    obtain ⟨k2, v2⟩ := p
    by_cases h2 : k2 = k
    · subst h2
      rw [alistGet, if_pos rfl] at h
      injection h with h
      subst h
      exact List.mem_cons_self _ _
    · rw [alistGet, if_neg h2] at h
      exact List.mem_cons_of_mem _ (ih h)

theorem alistGet_of_mem_nodup {α : Type} {m : List (String × α)}
    (hn : (m.map Prod.fst).Nodup) {p : String × α} (hp : p ∈ m) :
    alistGet m p.1 = some p.2 := by
  induction m with
  | nil => simp at hp
  | cons q rest ih =>
    obtain ⟨k2, v2⟩ := q
    rw [List.map_cons, List.nodup_cons] at hn
    rcases List.mem_cons.mp hp with hp | hp
    · subst hp
      rw [alistGet, if_pos rfl]
    · have hk : ¬ k2 = p.1 := by
        intro hh
        exact hn.1 (hh ▸ List.mem_map.mpr ⟨p, hp, rfl⟩)
      rw [alistGet, if_neg hk]
      exact ih hn.2 hp

theorem bumpCount_keys (t : String) : ∀ (m : List (String × Nat)),
    (bumpCount t m).map Prod.fst =
      if alistGet m t = none then m.map Prod.fst ++ [t] else m.map Prod.fst
  | [] => by simp [bumpCount, alistGet]
  | (k2, v) :: rest => by
    by_cases h : k2 = t
    · subst h
      simp [bumpCount, alistGet]
    · simp only [bumpCount, if_neg h, List.map_cons, alistGet, if_neg h]
      rw [bumpCount_keys t rest]
      by_cases h2 : alistGet rest t = none
      · simp [h2]
      · simp [h2]

theorem foldl_bump_keys_nodup : ∀ (l : List String) (m : List (String × Nat)),
    (m.map Prod.fst).Nodup → ((l.foldl (fun m t => bumpCount t m) m).map Prod.fst).Nodup
  | [], m, h => h
  | t :: rest, m, h => by
    simp only [List.foldl_cons]
    apply foldl_bump_keys_nodup rest
    rw [bumpCount_keys t m]
    by_cases h2 : alistGet m t = none
    · rw [if_pos h2]
      rw [List.nodup_append]
      refine ⟨h, List.nodup_singleton t, ?_⟩
      intro a ha hb
      rw [List.mem_singleton] at hb
      subst hb
      exact (alistGet_none_iff m a).mp h2 ha
    · rw [if_neg h2]
      exact h

theorem btc_keys_nodup (l : List String) :
    ((buildTokenCounts l).map Prod.fst).Nodup :=
  foldl_bump_keys_nodup l [] (by simp)

theorem btc_perm (l : List String) :
    List.Perm (buildTokenCounts l) (l.dedup.map (fun t => (t, l.count t))) := by
  have hn1 : (buildTokenCounts l).Nodup := (btc_keys_nodup l).of_map
  have hinj : Function.Injective (fun t : String => (t, l.count t)) := by
    intro x y hxy
    exact congrArg Prod.fst hxy
  have hn2 : (l.dedup.map (fun t => (t, l.count t))).Nodup :=
    (List.nodup_dedup l).map hinj
  rw [List.perm_ext_iff_of_nodup hn1 hn2]
  intro p
  constructor
  · intro hp
    have hget := alistGet_of_mem_nodup (btc_keys_nodup l) hp
    rw [btc_lookup] at hget
    by_cases hz : l.count p.1 = 0
    · rw [if_pos hz] at hget
      cases hget
    · rw [if_neg hz] at hget
      injection hget with hget
      refine List.mem_map.mpr ⟨p.1, ?_, ?_⟩
      · rw [List.mem_dedup]
        have := List.count_pos_iff.mp (by omega : 0 < l.count p.1)
        exact this
      · rw [hget]
  · intro hp
    obtain ⟨t, ht, hpt⟩ := List.mem_map.mp hp
    rw [List.mem_dedup] at ht
    have hz : l.count t ≠ 0 := by
      intro hcon
      rw [List.count_eq_zero] at hcon
      exact hcon ht
    have hget : alistGet (buildTokenCounts l) t = some (l.count t) := by
      rw [btc_lookup, if_neg hz]
    have hmem := mem_of_alistGet hget
    rw [← hpt]
    exact hmem

theorem foldl_add_min (countsB : List (String × Nat)) :
    ∀ (m : List (String × Nat)) (init : Nat),
      m.foldl (fun acc p =>
        match alistGet countsB p.1 with
        | some cb => acc + min p.2 cb
        | none => acc) init =
      init + (m.map (fun p => min p.2 ((alistGet countsB p.1).getD 0))).sum
  | [], init => by simp
  | p :: rest, init => by
    simp only [List.foldl_cons, List.map_cons, List.sum_cons]
    cases h : alistGet countsB p.1 with
    | none =>
      rw [foldl_add_min countsB rest init]
      simp [h]
    | some cb =>
      rw [foldl_add_min countsB rest (init + min p.2 cb)]
      simp [h]
      omega

theorem inter_card_eq (tA tB : List String) :
    Multiset.card (Multiset.ofList tA ∩ Multiset.ofList tB) =
      ∑ t ∈ tA.toFinset, min (tA.count t) (tB.count t) := by
  rw [← Multiset.toFinset_sum_count_eq]
  rw [Finset.sum_subset (by
    intro x hx
    rw [Multiset.mem_toFinset, Multiset.mem_inter] at hx
    rw [List.mem_toFinset]
    simpa using hx.1)]
  · apply Finset.sum_congr rfl
    intro x hx
    rw [Multiset.count_inter]
    simp
  · intro x hx hnx
    rw [Multiset.count_eq_zero]
    rw [Multiset.mem_toFinset] at hnx
    exact hnx

theorem dice_inter_sum (tA tB : List String) :
    ((buildTokenCounts tA).map
      (fun p => min p.2 ((alistGet (buildTokenCounts tB) p.1).getD 0))).sum =
      Multiset.card (Multiset.ofList tA ∩ Multiset.ofList tB) := by
  have hgetB : ∀ t : String, (alistGet (buildTokenCounts tB) t).getD 0 = tB.count t := by
    intro t
    rw [btc_lookup]
    by_cases hz : tB.count t = 0
    · simp [hz]
    · simp [hz]
  have hperm := (btc_perm tA).map
    (fun p : String × Nat => min p.2 ((alistGet (buildTokenCounts tB) p.1).getD 0))
  rw [hperm.sum_eq]
  rw [List.map_map]
  have hcomp :
      ((fun p : String × Nat => min p.2 ((alistGet (buildTokenCounts tB) p.1).getD 0)) ∘
        fun t => (t, tA.count t)) =
        fun t => min (tA.count t) (tB.count t) := by
    funext t
    simp [Function.comp, hgetB t]
  rw [hcomp, inter_card_eq]
  rw [← List.sum_toFinset _ (List.nodup_dedup tA)]
  have hfs : tA.dedup.toFinset = tA.toFinset := by
    apply Finset.ext
    intro a
    simp [List.mem_toFinset, List.mem_dedup]
  rw [hfs]

theorem dice_nonneg (countsA : List (String × Nat)) (totalA : Nat)
    (countsB : List (String × Nat)) (totalB : Nat) :
    0 ≤ diceCoefficient countsA totalA countsB totalB := by
  unfold diceCoefficient
  by_cases h1 : totalA = 0 ∨ totalB = 0
  · rw [if_pos h1]
  · rw [if_neg h1]
    by_cases h2 : totalA + totalB = 0
    · rw [if_pos h2]
    · rw [if_neg h2]
      apply div_nonneg
      · positivity
      · positivity

theorem diceCoefficient_eq_spec (tA tB : List String) :
    diceCoefficient (buildTokenCounts tA) tA.length (buildTokenCounts tB) tB.length =
      diceSpec tA tB := by
  unfold diceCoefficient diceSpec
  by_cases h1 : tA.length = 0 ∨ tB.length = 0
  · rw [if_pos h1]
    rcases h1 with h1 | h1
    · rw [List.length_eq_zero] at h1
      subst h1
      simp
    · rw [List.length_eq_zero] at h1
      subst h1
      simp
  · rw [if_neg h1]
    push_neg at h1
    rw [if_neg (by omega)]
    rw [foldl_add_min (buildTokenCounts tB) (buildTokenCounts tA) 0]
    rw [Nat.zero_add, dice_inter_sum tA tB]
    push_cast
    ring

/-- `cloneStep` leaves the results untouched when the similarity is below
the threshold. -/
theorem cloneStep_not_emit (a b : EnrichedSym) (θ : ℚ) (acc : ResultMap)
    (h : similarityOf a b < θ) : cloneStep a b θ acc = acc := by
  unfold cloneStep
  unfold similarityOf at h
  cases hov : (if hasSharedFingerprints a b then computeSymbolOverlap a b else none) with
  | none =>
    rw [hov] at h
    rw [if_neg (by exact not_le.mpr h)]
  | some o =>
    rw [hov] at h
    rw [if_neg (by exact not_le.mpr h)]

theorem computeSymbolOverlap_similarity (a b : EnrichedSym) (o : Overlap)
    (h : computeSymbolOverlap a b = some o) :
    o.similarity =
      ((o.segmentsA.foldl
          (fun sum seg => sum + ((seg.stop : Int) - (seg.start : Int) + 1)) 0 : ℤ) : ℚ) /
        ((max a.tokens.length b.tokens.length : Nat) : ℚ) := by
  unfold computeSymbolOverlap at h
  by_cases h1 : (a.fingerprintHashes.filter
      (fun h => b.fingerprintHashes.contains h)).isEmpty
  · rw [if_pos h1] at h
    cases h
  · rw [if_neg h1] at h
    by_cases h2 : (overlapOuter a b
        (a.fingerprintHashes.filter (fun h => b.fingerprintHashes.contains h))
        ⟨[], [], []⟩).segsA.isEmpty ∨ (overlapOuter a b
        (a.fingerprintHashes.filter (fun h => b.fingerprintHashes.contains h))
        ⟨[], [], []⟩).segsB.isEmpty
    · rw [if_pos h2] at h
      cases h
    · rw [if_neg h2] at h
      by_cases h3 : (mergeSegments (overlapOuter a b
          (a.fingerprintHashes.filter (fun h => b.fingerprintHashes.contains h))
          ⟨[], [], []⟩).segsA).isEmpty ∨ (mergeSegments (overlapOuter a b
          (a.fingerprintHashes.filter (fun h => b.fingerprintHashes.contains h))
          ⟨[], [], []⟩).segsB).isEmpty
      · rw [if_pos h3] at h
        cases h
      · rw [if_neg h3] at h
        by_cases h4 : max a.tokens.length b.tokens.length = 0
        · rw [if_pos h4] at h
          cases h
        · rw [if_neg h4] at h
          injection h with h
          subst h
          rfl

/-- C2.  For a compared pair of prepared function-like symbols (whose
token-count fields are the ones `enrichSymbol` computes), the final
similarity is the maximum of the merged-segment overlap similarity
(overlap tokens divided by the larger token count; 0 when absent) and the
Dice coefficient `2·Σ min(countA,countB) / (|A|+|B|)` over the token
multisets; the comparison step emits the pair of directed entries exactly
when this similarity reaches `DEFAULT_THRESHOLD = 0.55`, storing the
similarity rounded to two decimals. -/
theorem pair_similarity_and_emission (a b : EnrichedSym)
    (ha1 : a.tokenCounts = buildTokenCounts a.tokens)
    (ha2 : a.tokenTotal = a.tokens.length)
    (hb1 : b.tokenCounts = buildTokenCounts b.tokens)
    (hb2 : b.tokenTotal = b.tokens.length) :
    similarityOf a b = max (segOverlapSim a b) (diceSpec a.tokens b.tokens) ∧
    (∀ o, computeSymbolOverlap a b = some o →
      o.similarity =
        ((o.segmentsA.foldl
            (fun sum seg => sum + ((seg.stop : Int) - (seg.start : Int) + 1)) 0 : ℤ) : ℚ) /
          ((max a.tokens.length b.tokens.length : Nat) : ℚ)) ∧
    (∀ acc : ResultMap,
      (DEFAULT_THRESHOLD ≤ similarityOf a b →
        entryIn (cloneStep a b DEFAULT_THRESHOLD acc) a.id b.id
            (round2 (similarityOf a b)) ∧
          entryIn (cloneStep a b DEFAULT_THRESHOLD acc) b.id a.id
            (round2 (similarityOf a b))) ∧
      (similarityOf a b < DEFAULT_THRESHOLD →
        cloneStep a b DEFAULT_THRESHOLD acc = acc)) := by
  have hdice : diceCoefficient a.tokenCounts a.tokenTotal b.tokenCounts b.tokenTotal =
      diceSpec a.tokens b.tokens := by
    rw [ha1, ha2, hb1, hb2]
    exact diceCoefficient_eq_spec a.tokens b.tokens
  refine ⟨?_, ?_, ?_⟩
  · unfold similarityOf segOverlapSim
    cases hov : (if hasSharedFingerprints a b then computeSymbolOverlap a b else none) with
    | none =>
      rw [hdice]
      have h0 : (0 : ℚ) ≤ diceSpec a.tokens b.tokens := by
        rw [← hdice]
        rw [ha1, ha2, hb1, hb2]
        exact dice_nonneg _ _ _ _
      rw [max_eq_right h0]
    | some o =>
      rw [hdice]
  · intro o ho
    exact computeSymbolOverlap_similarity a b o ho
  · intro acc
    constructor
    · intro hth
      have h := entryIn_cloneStep a b DEFAULT_THRESHOLD acc
      constructor
      · exact (h a.id b.id (round2 (similarityOf a b))).mpr
          (Or.inr ⟨hth, Or.inl ⟨rfl, rfl, rfl⟩⟩)
      · exact (h b.id a.id (round2 (similarityOf a b))).mpr
          (Or.inr ⟨hth, Or.inr ⟨rfl, rfl, rfl⟩⟩)
    · intro hlt
      exact cloneStep_not_emit a b DEFAULT_THRESHOLD acc hlt

/-- Concrete witness inputs for C2: two three-token symbols with the
token-count fields `enrichSymbol` computes. -/
def c2symA : EnrichedSym :=
  { id := "function:a.js#f", path := "a.js", fileId := "file:a.js"
    startLine := 1, endLine := 1, language := "JavaScript"
    tokens := ["x", "y", "z"], tokenOffsets := [0, 2, 4], tokenLengths := [1, 1, 1]
    lineOffsets := [0], fingerprints := [], fingerprintIndex := []
    fingerprintHashes := [], tokenCounts := buildTokenCounts ["x", "y", "z"]
    tokenTotal := 3 }

def c2symB : EnrichedSym :=
  { id := "function:b.js#g", path := "b.js", fileId := "file:b.js"
    startLine := 4, endLine := 4, language := "JavaScript"
    tokens := ["x", "y", "w"], tokenOffsets := [0, 2, 4], tokenLengths := [1, 1, 1]
    lineOffsets := [0], fingerprints := [], fingerprintIndex := []
    fingerprintHashes := [], tokenCounts := buildTokenCounts ["x", "y", "w"]
    tokenTotal := 3 }

theorem pair_similarity_and_emission_witness :
    similarityOf c2symA c2symB =
        max (segOverlapSim c2symA c2symB) (diceSpec c2symA.tokens c2symB.tokens) ∧
    (∀ o, computeSymbolOverlap c2symA c2symB = some o →
      o.similarity =
        ((o.segmentsA.foldl
            (fun sum seg => sum + ((seg.stop : Int) - (seg.start : Int) + 1)) 0 : ℤ) : ℚ) /
          ((max c2symA.tokens.length c2symB.tokens.length : Nat) : ℚ)) ∧
    (∀ acc : ResultMap,
      (DEFAULT_THRESHOLD ≤ similarityOf c2symA c2symB →
        entryIn (cloneStep c2symA c2symB DEFAULT_THRESHOLD acc) c2symA.id c2symB.id
            (round2 (similarityOf c2symA c2symB)) ∧
          entryIn (cloneStep c2symA c2symB DEFAULT_THRESHOLD acc) c2symB.id c2symA.id
            (round2 (similarityOf c2symA c2symB))) ∧
      (similarityOf c2symA c2symB < DEFAULT_THRESHOLD →
        cloneStep c2symA c2symB DEFAULT_THRESHOLD acc = acc)) :=
  pair_similarity_and_emission c2symA c2symB rfl rfl rfl rfl

/-! ## C4 and C10: export-usage accounting (structureGraph.js) -/

structure ImportDescriptor where
  specifier : String
  names : List String
  hasNamespace : Bool
deriving DecidableEq, Repr

structure DepEdge where
  source : String
  target : String
  specifier : String
  kind : String
deriving DecidableEq, Repr

/-- `normalizePath(value)`: backslashes to forward slashes. -/
def normalizePath (value : String) : String :=
  String.mk (value.toList.map (fun c => if c = '\\' then '/' else c))

/-- `Map.prototype.set` on an association list: overwrite in place or
append. -/
def mapSet {α : Type} (m : List (String × α)) (k : String) (v : α) :
    List (String × α) :=
  match m with
  | [] => [(k, v)]
  | (k2, v2) :: rest =>
    if k2 = k then (k2, v) :: rest else (k2, v2) :: mapSet rest k v

/-- The resolution map `"{source}::{specifier}" → target` built from the
`local` dependency edges (later edges overwrite earlier ones, as `Map.set`
does). -/
def buildResolution (edges : List DepEdge) : List (String × String) :=
  edges.foldl
    (fun m dep =>
      if dep.kind ≠ "local" then m
      else mapSet m (normalizePath dep.source ++ "::" ++ dep.specifier)
        (normalizePath dep.target))
    []

/-- Usage-accumulation state: the per-source `seenPerSource` key set and
the `exportUsage` map from `"{target}#{name}"` to the set of importer
files. -/
structure UsageState where
  seen : List String
  usage : List (String × List String)
deriving DecidableEq, Repr

/-- The crediting block shared by both import shapes: skip if
`"{key}::{sourceFile}"` was already seen, otherwise record it and insert
`sourceFile` into the (created-if-absent) importer set of `key`. -/
def creditKey (sourceFile key : String) (st : UsageState) : UsageState :=
  let uniqueKey := key ++ "::" ++ sourceFile
  if st.seen.contains uniqueKey then st
  else
    { seen := st.seen ++ [uniqueKey]
      usage :=
        match alistGet st.usage key with
        | none => mapSet st.usage key [sourceFile]
        | some s =>
          mapSet st.usage key (if s.contains sourceFile then s else s ++ [sourceFile]) }

/-- Processing of one import descriptor of `sourceFile`
(the body of `imports.forEach`). -/
def processImport (resolution : List (String × String))
    (exportsByFile : List (String × List String)) (sourceFile : String)
    (imp : ImportDescriptor) (st : UsageState) : UsageState :=
  match alistGet resolution (sourceFile ++ "::" ++ imp.specifier) with
  | none => st
  | some target =>
    let exportSet := (alistGet exportsByFile target).getD []
    if imp.hasNamespace then
      exportSet.foldl (fun st name => creditKey sourceFile (target ++ "#" ++ name) st) st
    else
      imp.names.foldl
        (fun st name =>
          let exportName := if name = "" then "default" else name
          if exportSet.contains exportName then
            creditKey sourceFile (target ++ "#" ++ exportName) st
          else st)
        st

/-- Processing of one importing file (fresh `seenPerSource`). -/
def processSource (resolution : List (String × String))
    (exportsByFile : List (String × List String)) (sourceFile : String)
    (imps : List ImportDescriptor) (usage : List (String × List String)) :
    List (String × List String) :=
  (imps.foldl (fun st imp => processImport resolution exportsByFile sourceFile imp st)
    ⟨[], usage⟩).usage

/-- The published `exportUsage` object:
`"{target}#{name}" → number of distinct importer files`. -/
def computeExportUsage (importsByFile : List (String × List ImportDescriptor))
    (exportsByFile : List (String × List String)) (edges : List DepEdge) :
    List (String × Nat) :=
  let resolution := buildResolution edges
  let usage := importsByFile.foldl
    (fun usage p => processSource resolution exportsByFile p.1 p.2 usage) []
  usage.map (fun p => (p.1, p.2.length))

/-- Whether one import descriptor of `sourceFile` credits the export
`key`: the specifier resolves locally to a target, and either the import
is a namespace import and `key` names one of the target's exports, or it
names an imported name present in the target's export set. -/
def creditsImport (resolution : List (String × String))
    (exportsByFile : List (String × List String)) (sourceFile : String)
    (imp : ImportDescriptor) (key : String) : Bool :=
  match alistGet resolution (sourceFile ++ "::" ++ imp.specifier) with
  | none => false
  | some target =>
    let exportSet := (alistGet exportsByFile target).getD []
    if imp.hasNamespace then
      exportSet.any (fun name => key == target ++ "#" ++ name)
    else
      imp.names.any
        (fun name =>
          let exportName := if name = "" then "default" else name
          exportSet.contains exportName && key == target ++ "#" ++ exportName)

/-- Whether the importing file `(sourceFile, imps)` credits `key`. -/
def credits (resolution : List (String × String))
    (exportsByFile : List (String × List String)) (sourceFile : String)
    (imps : List ImportDescriptor) (key : String) : Bool :=
  imps.any (fun imp => creditsImport resolution exportsByFile sourceFile imp key)

theorem strAppend_cancel_right {a b t : String} (h : a ++ t = b ++ t) : a = b := by
  have hd := congrArg String.data h
  simp only [String.data_append] at hd
  have h2 := List.append_cancel_right hd
  cases a
  cases b
  exact congrArg String.mk h2

theorem contains_append (l1 l2 : List String) (a : String) :
    (l1 ++ l2).contains a = (l1.contains a || l2.contains a) := by
  induction l1 with
  | nil => simp [List.contains]
  | cons x t ih => simp [List.contains_cons, ih, Bool.or_assoc]

theorem mapSet_lookup {α : Type} (k : String) (v : α) :
    ∀ (m : List (String × α)) (k2 : String),
      alistGet (mapSet m k v) k2 = if k2 = k then some v else alistGet m k2
  | [], k2 => by
    by_cases h : k2 = k
    · subst h
      simp [mapSet, alistGet]
    · have h2 : ¬ k = k2 := fun hh => h hh.symm
      simp [mapSet, alistGet, h, h2]
  | (k3, v3) :: rest, k2 => by
    by_cases h3 : k3 = k
    · subst h3
      by_cases h : k2 = k3
      · subst h
        simp [mapSet, alistGet]
      · have h' : ¬ k3 = k2 := fun hh => h hh.symm
        simp [mapSet, alistGet, h, h']
    · by_cases hk : k3 = k2
      · subst hk
        simp [mapSet, alistGet, h3, fun hh : k3 = k => h3 hh]
      · simp only [mapSet, if_neg h3, alistGet, if_neg hk]
        exact mapSet_lookup k v rest k2

/-- The per-source invariant: the `seenPerSource` set holds exactly the
unique keys of the credits granted so far (described by `P`), and the
usage map extends `usage0` by inserting `sourceFile` into exactly the
credited keys. -/
def UsageInv (usage0 : List (String × List String)) (s : String)
    (P : String → Bool) (st : UsageState) : Prop :=
  (∀ k, st.seen.contains (k ++ "::" ++ s) = P k) ∧
  (∀ k, alistGet st.usage k =
    if P k then some ((alistGet usage0 k).getD [] ++ [s])
    else alistGet usage0 k)

theorem UsageInv_congr {usage0 : List (String × List String)} {s : String}
    {P Q : String → Bool} {st : UsageState} (h : ∀ k, P k = Q k)
    (hi : UsageInv usage0 s P st) : UsageInv usage0 s Q st := by
  obtain ⟨h1, h2⟩ := hi
  refine ⟨?_, ?_⟩
  · intro k
    rw [← h k]
    exact h1 k
  · intro k
    rw [← h k]
    exact h2 k

theorem creditKey_inv (usage0 : List (String × List String)) (s : String)
    (P : String → Bool) (key : String) (st : UsageState)
    (hfresh : ∀ k, s ∉ (alistGet usage0 k).getD [])
    (h : UsageInv usage0 s P st) :
    UsageInv usage0 s (fun k => P k || (k == key)) (creditKey s key st) := by
  obtain ⟨hseen, husage⟩ := h
  unfold creditKey
  by_cases hc : st.seen.contains (key ++ "::" ++ s) = true
  · rw [if_pos hc]
    have hPkey : P key = true := by rw [← hseen key]; exact hc
    refine ⟨?_, ?_⟩
    · intro k
      rw [hseen k]
      by_cases hk : k = key
      · subst hk
        simp [hPkey]
      · simp [hk]
    · intro k
      rw [husage k]
      by_cases hk : k = key
      · subst hk
        simp [hPkey]
      · simp [hk]
  · rw [if_neg hc]
    have hPkey : P key = false := by rw [← hseen key]; simpa using hc
    refine ⟨?_, ?_⟩
    · intro k
      rw [contains_append, hseen k]
      have : ([key ++ "::" ++ s].contains (k ++ "::" ++ s)) = (k == key) := by
        simp only [List.contains_cons, List.contains, Bool.or_false]
        by_cases hk : k = key
        · subst hk
          simp
        · have hne : ¬ (k ++ "::" ++ s = key ++ "::" ++ s) := by
            intro hcon
            have : k ++ ("::" ++ s) = key ++ ("::" ++ s) := by
              rwa [← String.append_assoc, ← String.append_assoc]
            exact hk (strAppend_cancel_right this)
          simp [hne, hk]
      rw [this]
    · intro k
      show alistGet (match alistGet st.usage key with
        | none => mapSet st.usage key [s]
        | some set0 =>
          mapSet st.usage key (if set0.contains s then set0 else set0 ++ [s])) k = _
      have hu := husage key
      rw [hPkey, if_neg (by simp)] at hu
      cases h0 : alistGet usage0 key with
      | none =>
        rw [h0] at hu
        rw [hu, mapSet_lookup]
        by_cases hk : k = key
        · subst hk
          simp [hPkey, h0]
        · rw [if_neg hk, husage k]
          simp [hk]
      | some l0 =>
        rw [h0] at hu
        rw [hu]
        show alistGet (mapSet st.usage key
          (if l0.contains s = true then l0 else l0 ++ [s])) k = _
        have hnos : l0.contains s = false := by
          have := hfresh key
          rw [h0] at this
          simpa [List.contains] using this
        rw [hnos]
        simp only [Bool.false_eq_true, if_false]
        rw [mapSet_lookup]
        by_cases hk : k = key
        · subst hk
          simp [hPkey, h0]
        · rw [if_neg hk, husage k]
          simp [hk]

theorem creditNamesFold_inv (usage0 : List (String × List String)) (s target : String)
    (hfresh : ∀ k, s ∉ (alistGet usage0 k).getD []) :
    ∀ (names : List String) (P : String → Bool) (st : UsageState),
      UsageInv usage0 s P st →
      UsageInv usage0 s
        (fun k => P k || names.any (fun n => k == target ++ "#" ++ n))
        (names.foldl (fun st n => creditKey s (target ++ "#" ++ n) st) st)
  | [], P, st, h => by
    apply UsageInv_congr (fun k => by simp) h
  | n :: rest, P, st, h => by
    have h1 := creditKey_inv usage0 s P (target ++ "#" ++ n) st hfresh h
    have h2 := creditNamesFold_inv usage0 s target hfresh rest _ _ h1
    simp only [List.foldl_cons]
    apply UsageInv_congr (fun k => by
      simp only [List.any_cons]
      rw [Bool.or_assoc]) h2

theorem creditNamedFold_inv (usage0 : List (String × List String)) (s target : String)
    (exportSet : List String)
    (hfresh : ∀ k, s ∉ (alistGet usage0 k).getD []) :
    ∀ (names : List String) (P : String → Bool) (st : UsageState),
      UsageInv usage0 s P st →
      UsageInv usage0 s
        (fun k => P k || names.any (fun name =>
          let exportName := if name = "" then "default" else name
          exportSet.contains exportName && k == target ++ "#" ++ exportName))
        (names.foldl
          (fun st name =>
            let exportName := if name = "" then "default" else name
            if exportSet.contains exportName then
              creditKey s (target ++ "#" ++ exportName) st
            else st)
          st)
  | [], P, st, h => by
    apply UsageInv_congr (fun k => by simp) h
  | name :: rest, P, st, h => by
    simp only [List.foldl_cons]
    by_cases hcont : exportSet.contains (if name = "" then "default" else name) = true
    · rw [if_pos hcont]
      have h1 := creditKey_inv usage0 s P
        (target ++ "#" ++ (if name = "" then "default" else name)) st hfresh h
      have h2 := creditNamedFold_inv usage0 s target exportSet hfresh rest _ _ h1
      apply UsageInv_congr (fun k => by
        simp only [List.any_cons, hcont, Bool.true_and]
        rw [Bool.or_assoc]) h2
    · rw [if_neg hcont]
      have h2 := creditNamedFold_inv usage0 s target exportSet hfresh rest _ _ h
      apply UsageInv_congr (fun k => by
        simp only [List.any_cons]
        rw [Bool.eq_false_iff.mpr hcont]
        simp) h2

theorem creditsImport_resolves_none {resolution : List (String × String)}
    {exportsByFile : List (String × List String)} {s : String}
    {imp : ImportDescriptor} (k : String)
    (hres : alistGet resolution (s ++ "::" ++ imp.specifier) = none) :
    creditsImport resolution exportsByFile s imp k = false := by
  unfold creditsImport
  rw [hres]

theorem creditsImport_resolves_some {resolution : List (String × String)}
    {exportsByFile : List (String × List String)} {s : String}
    {imp : ImportDescriptor} {target : String} (k : String)
    (hres : alistGet resolution (s ++ "::" ++ imp.specifier) = some target) :
    creditsImport resolution exportsByFile s imp k =
      (if imp.hasNamespace = true then
        ((alistGet exportsByFile target).getD []).any
          (fun name => k == target ++ "#" ++ name)
      else
        imp.names.any (fun name =>
          let exportName := if name = "" then "default" else name
          ((alistGet exportsByFile target).getD []).contains exportName &&
            k == target ++ "#" ++ exportName)) := by
  unfold creditsImport
  rw [hres]

theorem processImport_resolves_none {resolution : List (String × String)}
    {exportsByFile : List (String × List String)} {s : String}
    {imp : ImportDescriptor} (st : UsageState)
    (hres : alistGet resolution (s ++ "::" ++ imp.specifier) = none) :
    processImport resolution exportsByFile s imp st = st := by
  unfold processImport
  rw [hres]

theorem processImport_resolves_some {resolution : List (String × String)}
    {exportsByFile : List (String × List String)} {s : String}
    {imp : ImportDescriptor} {target : String} (st : UsageState)
    (hres : alistGet resolution (s ++ "::" ++ imp.specifier) = some target) :
    processImport resolution exportsByFile s imp st =
      (if imp.hasNamespace = true then
        ((alistGet exportsByFile target).getD []).foldl
          (fun st name => creditKey s (target ++ "#" ++ name) st) st
      else
        imp.names.foldl
          (fun st name =>
            let exportName := if name = "" then "default" else name
            if ((alistGet exportsByFile target).getD []).contains exportName then
              creditKey s (target ++ "#" ++ exportName) st
            else st)
          st) := by
  unfold processImport
  rw [hres]

theorem processImport_inv (resolution : List (String × String))
    (exportsByFile : List (String × List String))
    (usage0 : List (String × List String)) (s : String)
    (imp : ImportDescriptor) (P : String → Bool) (st : UsageState)
    (hfresh : ∀ k, s ∉ (alistGet usage0 k).getD [])
    (h : UsageInv usage0 s P st) :
    UsageInv usage0 s
      (fun k => P k || creditsImport resolution exportsByFile s imp k)
      (processImport resolution exportsByFile s imp st) := by
  cases hres : alistGet resolution (s ++ "::" ++ imp.specifier) with
  | none =>
    rw [processImport_resolves_none st hres]
    apply UsageInv_congr (fun k => by
      rw [creditsImport_resolves_none k hres]
      simp) h
  | some target =>
    rw [processImport_resolves_some st hres]
    by_cases hns : imp.hasNamespace = true
    · rw [if_pos hns]
      have h2 := creditNamesFold_inv usage0 s target hfresh
        ((alistGet exportsByFile target).getD []) P st h
      apply UsageInv_congr (fun k => by
        rw [creditsImport_resolves_some k hres, if_pos hns]) h2
    · rw [if_neg hns]
      have h2 := creditNamedFold_inv usage0 s target
        ((alistGet exportsByFile target).getD []) hfresh imp.names P st h
      apply UsageInv_congr (fun k => by
        rw [creditsImport_resolves_some k hres, if_neg hns]) h2

theorem impsFold_inv (resolution : List (String × String))
    (exportsByFile : List (String × List String))
    (usage0 : List (String × List String)) (s : String)
    (hfresh : ∀ k, s ∉ (alistGet usage0 k).getD []) :
    ∀ (imps : List ImportDescriptor) (P : String → Bool) (st : UsageState),
      UsageInv usage0 s P st →
      UsageInv usage0 s
        (fun k => P k ||
          imps.any (fun imp => creditsImport resolution exportsByFile s imp k))
        (imps.foldl
          (fun st imp => processImport resolution exportsByFile s imp st) st)
  | [], P, st, h => by
    apply UsageInv_congr (fun k => by simp) h
  | imp :: rest, P, st, h => by
    simp only [List.foldl_cons]
    have h1 := processImport_inv resolution exportsByFile usage0 s imp P st hfresh h
    have h2 := impsFold_inv resolution exportsByFile usage0 s hfresh rest _ _ h1
    apply UsageInv_congr (fun k => by
      simp only [List.any_cons]
      rw [Bool.or_assoc]) h2

theorem processSource_char (resolution : List (String × String))
    (exportsByFile : List (String × List String)) (s : String)
    (imps : List ImportDescriptor) (usage0 : List (String × List String))
    (hfresh : ∀ k, s ∉ (alistGet usage0 k).getD []) (k : String) :
    alistGet (processSource resolution exportsByFile s imps usage0) k =
      if credits resolution exportsByFile s imps k
      then some ((alistGet usage0 k).getD [] ++ [s])
      else alistGet usage0 k := by
  have hinit : UsageInv usage0 s (fun _ => false) ⟨[], usage0⟩ := by
    refine ⟨?_, ?_⟩
    · intro k2
      simp [List.contains]
    · intro k2
      simp
  have h := impsFold_inv resolution exportsByFile usage0 s hfresh imps
    (fun _ => false) ⟨[], usage0⟩ hinit
  have h2 := h.2 k
  simp only [Bool.false_or] at h2
  exact h2

/-- `none` for an empty creditor list, `some` of it otherwise. -/
def optList (l : List String) : Option (List String) :=
  if l.isEmpty then none else some l

theorem optList_getD (l : List String) : (optList l).getD [] = l := by
  unfold optList
  by_cases h : l.isEmpty
  · rw [if_pos h]
    rw [List.isEmpty_iff] at h
    simp [h]
  · rw [if_neg h]
    rfl

theorem foldSources_char (resolution : List (String × String))
    (exportsByFile : List (String × List String)) :
    ∀ (rest : List (String × List ImportDescriptor))
      (usage : List (String × List String)) (A : String → List String),
      (∀ k, alistGet usage k = optList (A k)) →
      (∀ k x, x ∈ A k → x ∉ rest.map Prod.fst) →
      (rest.map Prod.fst).Nodup →
      ∀ k,
        alistGet
          (rest.foldl
            (fun u p => processSource resolution exportsByFile p.1 p.2 u) usage) k =
        optList (A k ++
          (rest.filter
            (fun p => credits resolution exportsByFile p.1 p.2 k)).map Prod.fst)
  | [], usage, A, hA, _, _, k => by
    simpa using hA k
  | (s, imps) :: rest2, usage, A, hA, hAfresh, hnd, k => by
    simp only [List.foldl_cons]
    rw [List.map_cons, List.nodup_cons] at hnd
    have hfresh : ∀ k2, s ∉ (alistGet usage k2).getD [] := by
      intro k2 hmem
      rw [hA k2, optList_getD] at hmem
      exact hAfresh k2 s hmem (List.mem_cons_self _ _)
    have hchar := processSource_char resolution exportsByFile s imps usage hfresh
    have hstep : ∀ k2,
        alistGet (processSource resolution exportsByFile s imps usage) k2 =
          optList (A k2 ++ (if credits resolution exportsByFile s imps k2 then [s] else [])) := by
      intro k2
      rw [hchar k2]
      by_cases hcr : credits resolution exportsByFile s imps k2 = true
      · rw [if_pos hcr, if_pos hcr, hA k2, optList_getD]
        unfold optList
        rw [if_neg (by simp)]
      · rw [if_neg hcr, if_neg hcr, hA k2]
        simp
    have hrec := foldSources_char resolution exportsByFile rest2
      (processSource resolution exportsByFile s imps usage)
      (fun k2 => A k2 ++ (if credits resolution exportsByFile s imps k2 then [s] else []))
      hstep
      (by
        intro k2 x hx hxin
        rcases List.mem_append.mp hx with hx | hx
        · exact hAfresh k2 x hx (List.mem_cons_of_mem _ hxin)
        · by_cases hcr : credits resolution exportsByFile s imps k2 = true
          · rw [if_pos hcr, List.mem_singleton] at hx
            subst hx
            exact hnd.1 hxin
          · rw [if_neg hcr] at hx
            simp at hx)
      hnd.2
    rw [hrec k]
    congr 1
    rw [List.filter_cons]
    by_cases hcr : credits resolution exportsByFile s imps k = true
    · simp [hcr, List.append_assoc]
    · simp [hcr]

theorem alistGet_map_snd {α β : Type} (f : α → β) :
    ∀ (m : List (String × α)) (k : String),
      alistGet (m.map (fun p => (p.1, f p.2))) k = (alistGet m k).map f
  | [], k => rfl
  | (k2, v) :: rest, k => by
    by_cases h : k2 = k
    · subst h
      simp [alistGet]
    · simp only [List.map_cons, alistGet, if_neg h]
      exact alistGet_map_snd f rest k

/-- The characterisation of the published export-usage counts. -/
theorem computeExportUsage_char (importsByFile : List (String × List ImportDescriptor))
    (exportsByFile : List (String × List String)) (edges : List DepEdge)
    (hnd : (importsByFile.map Prod.fst).Nodup) (key : String) :
    alistGet (computeExportUsage importsByFile exportsByFile edges) key =
      (optList ((importsByFile.filter
        (fun p => credits (buildResolution edges) exportsByFile p.1 p.2 key)).map
          Prod.fst)).map List.length := by
  unfold computeExportUsage
  rw [alistGet_map_snd]
  rw [foldSources_char (buildResolution edges) exportsByFile importsByFile []
    (fun _ => []) (fun k => rfl) (by intro k x hx; simp at hx) hnd key]
  simp

/-- C4.  `exportUsage["target#name"]` is the number of distinct importer
files crediting that export: a namespace import of a locally resolved
specifier credits every name in the target's export set, named/default
imports credit exactly the imported names present in the export set, and
repeated imports from the same importer count once (the key is absent
when nothing credits it). -/
theorem export_usage_distinct_importers
    (importsByFile : List (String × List ImportDescriptor))
    (exportsByFile : List (String × List String)) (edges : List DepEdge)
    (hnd : (importsByFile.map Prod.fst).Nodup) (key : String) :
    (alistGet (computeExportUsage importsByFile exportsByFile edges) key = none ↔
      importsByFile.filter
        (fun p => credits (buildResolution edges) exportsByFile p.1 p.2 key) = []) ∧
    (∀ c, alistGet (computeExportUsage importsByFile exportsByFile edges) key = some c →
      c = (importsByFile.filter
        (fun p => credits (buildResolution edges) exportsByFile p.1 p.2 key)).length) := by
  rw [computeExportUsage_char importsByFile exportsByFile edges hnd key]
  constructor
  · unfold optList
    by_cases h : ((importsByFile.filter
        (fun p => credits (buildResolution edges) exportsByFile p.1 p.2 key)).map
          Prod.fst).isEmpty
    · rw [if_pos h]
      rw [List.isEmpty_iff, List.map_eq_nil_iff] at h
      simp [h]
    · rw [if_neg h]
      rw [List.isEmpty_iff, List.map_eq_nil_iff] at h
      simp [h]
  · intro c hc
    unfold optList at hc
    by_cases h : ((importsByFile.filter
        (fun p => credits (buildResolution edges) exportsByFile p.1 p.2 key)).map
          Prod.fst).isEmpty
    · rw [if_pos h] at hc
      cases hc
    · rw [if_neg h] at hc
      have hred : (some ((importsByFile.filter
          (fun p => credits (buildResolution edges) exportsByFile p.1 p.2 key)).map
            Prod.fst)).map List.length =
          some ((importsByFile.filter
          (fun p => credits (buildResolution edges) exportsByFile p.1 p.2 key)).map
            Prod.fst).length := rfl
      rw [hred] at hc
      rw [(Option.some_inj.mp hc).symm, List.length_map]

/-- C10.  Every published export-usage count is at least 1: zero usage is
represented by key absence, never by a stored zero. -/
theorem export_usage_positive
    (importsByFile : List (String × List ImportDescriptor))
    (exportsByFile : List (String × List String)) (edges : List DepEdge)
    (hnd : (importsByFile.map Prod.fst).Nodup) :
    ∀ key c, alistGet (computeExportUsage importsByFile exportsByFile edges) key
        = some c → 1 ≤ c := by
  intro key c hc
  rw [computeExportUsage_char importsByFile exportsByFile edges hnd key] at hc
  unfold optList at hc
  by_cases h : ((importsByFile.filter
      (fun p => credits (buildResolution edges) exportsByFile p.1 p.2 key)).map
        Prod.fst).isEmpty
  · rw [if_pos h] at hc
    cases hc
  · rw [if_neg h] at hc
    have hred : (some ((importsByFile.filter
        (fun p => credits (buildResolution edges) exportsByFile p.1 p.2 key)).map
          Prod.fst)).map List.length =
        some ((importsByFile.filter
        (fun p => credits (buildResolution edges) exportsByFile p.1 p.2 key)).map
          Prod.fst).length := rfl
    rw [hred] at hc
    have hcv := Option.some_inj.mp hc
    rw [List.isEmpty_iff] at h
    have hpos := List.length_pos.mpr h
    omega

/-- Concrete witness fixture for C4 and C10: `b.js` imports `foo` twice
from `a.js` (counted once) and `c.js` namespace-imports `a.js`. -/
def c4imports : List (String × List ImportDescriptor) :=
  [("b.js", [⟨"./a", ["foo"], false⟩, ⟨"./a", ["foo", "bar"], false⟩]),
   ("c.js", [⟨"./a", [], true⟩])]

def c4exports : List (String × List String) :=
  [("a.js", ["foo", "baz"])]

def c4edges : List DepEdge :=
  [⟨"b.js", "a.js", "./a", "local"⟩, ⟨"c.js", "a.js", "./a", "local"⟩]

theorem export_usage_distinct_importers_witness :
    (alistGet (computeExportUsage c4imports c4exports c4edges) "a.js#foo" = none ↔
      c4imports.filter
        (fun p => credits (buildResolution c4edges) c4exports p.1 p.2 "a.js#foo") = []) ∧
    (∀ c, alistGet (computeExportUsage c4imports c4exports c4edges) "a.js#foo" = some c →
      c = (c4imports.filter
        (fun p => credits (buildResolution c4edges) c4exports p.1 p.2 "a.js#foo")).length) :=
  export_usage_distinct_importers c4imports c4exports c4edges (by decide) "a.js#foo"

theorem export_usage_positive_witness :
    alistGet (computeExportUsage c4imports c4exports c4edges) "a.js#foo" = some 2 ∧
    1 ≤ 2 :=
  ⟨by decide,
    export_usage_positive c4imports c4exports c4edges (by decide) "a.js#foo" 2 (by decide)⟩

/-! ## C5: smell detector (smellDetector.js)

The regular expressions of the smell detector are modelled by dedicated
matchers with the semantics of the JavaScript patterns (ordered
alternation, greedy quantifiers with the backtracking the specific
patterns admit, ASCII `\s`/`\w` classes). -/

/-- The ASCII part of the JavaScript `\s` class. -/
def isWs (c : Char) : Bool :=
  c = ' ' || c = '\t' || c = '\n' || c = '\r' || c = Char.ofNat 11 || c = Char.ofNat 12

/-- Split off the maximal prefix satisfying `p`. -/
def spanList (p : Char → Bool) : List Char → (List Char × List Char)
  | [] => ([], [])
  | c :: t =>
    if p c then
      let (r, rest) := spanList p t
      (c :: r, rest)
    else ([], c :: t)

/-- Match `\b lit \b` (for a literal made of word characters) at the head
of `l`, where `prev` is the character before the current position. -/
def matchWordLit (lit : List Char) (prev : Option Char) (l : List Char) :
    Option (List Char) :=
  let boundaryBefore :=
    match prev with
    | none => true
    | some p => !isTokenChar p
  if boundaryBefore then
    match dropLit lit l with
    | some rest =>
      match rest with
      | [] => some []
      | c :: _ => if isTokenChar c then none else some rest
    | none => none
  else none

/-- Match `\belse\s+if\b` at the head of `l`. -/
def matchElseIf (prev : Option Char) (l : List Char) : Option (List Char) :=
  let boundaryBefore :=
    match prev with
    | none => true
    | some p => !isTokenChar p
  if boundaryBefore then
    match dropLit ['e', 'l', 's', 'e'] l with
    | some rest =>
      let (ws, rest2) := spanList isWs rest
      if ws.isEmpty then none
      else
        match dropLit ['i', 'f'] rest2 with
        | some rest3 =>
          match rest3 with
          | [] => some []
          | c :: _ => if isTokenChar c then none else some rest3
        | none => none
    | none => none
  else none

/-- Ordered alternation of the `countBranches` regex
`(?:\bif\b|\belse\s+if\b|\bfor\b|\bwhile\b|\bswitch\b|\bcase\b|\bcatch\b|&&|\|\|)`. -/
def branchTry (prev : Option Char) (l : List Char) : Option (List Char) :=
  (matchWordLit ['i', 'f'] prev l).orElse fun _ =>
  (matchElseIf prev l).orElse fun _ =>
  (matchWordLit ['f', 'o', 'r'] prev l).orElse fun _ =>
  (matchWordLit ['w', 'h', 'i', 'l', 'e'] prev l).orElse fun _ =>
  (matchWordLit ['s', 'w', 'i', 't', 'c', 'h'] prev l).orElse fun _ =>
  (matchWordLit ['c', 'a', 's', 'e'] prev l).orElse fun _ =>
  (matchWordLit ['c', 'a', 't', 'c', 'h'] prev l).orElse fun _ =>
  (dropLit ['&', '&'] l).orElse fun _ =>
  dropLit ['|', '|'] l

/-- The global-regex match counter: try the matcher at every position in
order, skipping past each match (`String.prototype.match` with `/g`).
`prev` tracks the character preceding the position for word boundaries.
Fuel: each step consumes at least one character, so the text length
suffices. -/
def scanCount (tryM : Option Char → List Char → Option (List Char)) :
    Nat → Option Char → List Char → Nat → Nat
  | 0, _, _, n => n
  | fuel + 1, prev, l, n =>
    match l with
    | [] => n
    | c :: rest =>
      match tryM prev l with
      | some rest2 =>
        if rest2.length < l.length then
          scanCount tryM fuel ((l.take (l.length - rest2.length)).getLast? ) rest2 (n + 1)
        else scanCount tryM fuel (some c) rest n
      | none => scanCount tryM fuel (some c) rest n

/-- `countBranches(text)`. -/
def countBranches (text : String) : Nat :=
  scanCount branchTry text.toList.length none text.toList 0

/-- Number of parts produced by splitting on `\r?\n`. -/
def jsSplitParts : List Char → Nat
  | [] => 1
  | '\r' :: '\n' :: t => 1 + jsSplitParts t
  | '\n' :: t => 1 + jsSplitParts t
  | _ :: t => jsSplitParts t

/-- `countLines(text)`: the number of `/\r?\n/`-separated parts. -/
def countLines (text : String) : Nat :=
  if text = "" then 0 else jsSplitParts text.toList

/-- JS `String.prototype.trim` (ASCII whitespace). -/
def jsTrim (l : List Char) : List Char :=
  ((l.dropWhile isWs).reverse.dropWhile isWs).reverse

/-- Split a character list at commas. -/
def splitCommas : List Char → List (List Char)
  | [] => [[]]
  | ',' :: t =>
    [] :: splitCommas t
  | c :: t =>
    match splitCommas t with
    | [] => [[c]]
    | p :: ps => (c :: p) :: ps

/-- One attempt of `/^[^{=>]*\(([^)]*)\)/` at a line start: backtrack the
greedy `[^{=>]*` over the maximal `[^{=>]` run, trying the rightmost
`(` first; the group is everything up to the first `)` after it
(`[^)]` also matches newlines).  Returns the captured group. -/
def cpTryLine (l : List Char) : Option (List Char) :=
  let run := l.takeWhile (fun c => !(c = '{' || c = '=' || c = '>'))
  let candidates := (List.range run.length).filter (fun q => run.getD q ' ' = '(')
  candidates.reverse.firstM (fun q =>
    let after := l.drop (q + 1)
    let grp := after.takeWhile (fun c => c ≠ ')')
    if grp.length < after.length then some grp else none)

/-- The suffixes of the text starting just after each line terminator
(the non-initial `^` anchors of the `m` flag). -/
def lineSuffixes : List Char → List (List Char)
  | [] => []
  | c :: t =>
    if c = '\n' ∨ c = '\r' then t :: lineSuffixes t else lineSuffixes t

/-- `countParameters(text)`: first multiline match of
`/^[^{=>]*\(([^)]*)\)/m`, split the group on commas, trim, drop empties
and rest-parameters. -/
def countParameters (text : String) : Nat :=
  if text = "" then 0
  else
    match (text.toList :: lineSuffixes text.toList).firstM cpTryLine with
    | none => 0
    | some grp =>
      ((splitCommas grp).map jsTrim).filter
        (fun p => !p.isEmpty && !(p.take 3 = ['.', '.', '.'] )) |>.length

/-- Tail of the class-method pattern: `[A-Za-z_][\w]*\s*\(`. -/
def cmIdentParen (l : List Char) : Option (List Char) :=
  match l with
  | [] => none
  | c :: t =>
    if c.isAlpha || c = '_' then
      let (_, r1) := spanList isTokenChar t
      let (_, r2) := spanList isWs r1
      match r2 with
      | '(' :: r3 => some r3
      | _ => none
    else none

/-- `(static\s+)?` then the identifier tail, preferring to take the
optional group (regex backtracking order). -/
def cmStatic (l : List Char) : Option (List Char) :=
  (match dropLit ['s', 't', 'a', 't', 'i', 'c'] l with
   | some r =>
     let (ws, r2) := spanList isWs r
     if ws.isEmpty then none else cmIdentParen r2
   | none => none).orElse fun _ => cmIdentParen l

/-- `(async\s+)?` then the rest. -/
def cmAsync (l : List Char) : Option (List Char) :=
  (match dropLit ['a', 's', 'y', 'n', 'c'] l with
   | some r =>
     let (ws, r2) := spanList isWs r
     if ws.isEmpty then none else cmStatic r2
   | none => none).orElse fun _ => cmStatic l

/-- One attempt of `/\n\s*(?:async\s+)?(?:static\s+)?[A-Za-z_][\w]*\s*\(/`. -/
def cmTry (_ : Option Char) (l : List Char) : Option (List Char) :=
  match l with
  | '\n' :: t =>
    let (_, r1) := spanList isWs t
    cmAsync r1
  | _ => none

/-- `countClassMethods(text)`. -/
def countClassMethods (text : String) : Nat :=
  scanCount cmTry text.toList.length none text.toList 0

/-! ### Smell constants and detector -/

def LONG_FUNCTION_WARNING : Int := 50
def LONG_FUNCTION_ERROR : Int := 100
def PARAM_WARNING_THRESHOLD : Nat := 5
def PARAM_ERROR_THRESHOLD : Nat := 8
def BRANCH_WARNING_THRESHOLD : Nat := 15
def BRANCH_ERROR_THRESHOLD : Nat := 25
def LARGE_CLASS_METHOD_WARNING : Nat := 15
def LARGE_CLASS_METHOD_ERROR : Nat := 25

structure SmellIssue where
  category : String
  severity : String
  type : String
  path : String
  message : String
  symbolId : String
  line : Option Int
deriving DecidableEq, Repr

/-- `createIssue(symbol, severity, type, message)`. -/
def createIssue (symbol : SymbolEntry) (severity type message : String) : SmellIssue :=
  { category := "smell"
    severity := severity
    type := type
    path := symbol.path
    message := message
    symbolId := symbol.id
    line := if symbol.startLine ≠ 0 then some symbol.startLine else none }

/-- `computeLineSpan(symbol)`. -/
def computeLineSpan (symbol : SymbolEntry) : Int :=
  if symbol.startLine ≠ 0 ∧ symbol.endLine ≠ 0 then
    let span := symbol.endLine - symbol.startLine + 1
    if 0 < span then span else (countLines symbol.text : Int)
  else (countLines symbol.text : Int)

/-- `detectFunctionSmells(symbol)`. -/
def detectFunctionSmells (symbol : SymbolEntry) : List SmellIssue :=
  let lineSpan := computeLineSpan symbol
  let branchCount := countBranches symbol.text
  let paramCount := countParameters symbol.text
  (if LONG_FUNCTION_WARNING ≤ lineSpan then
    [createIssue symbol (if LONG_FUNCTION_ERROR ≤ lineSpan then "error" else "warning")
      "long-function"
      ((if symbol.name ≠ "" then symbol.name else "Anonymous function") ++ " spans " ++
        toString lineSpan ++ " lines. Consider extracting helpers.")]
  else []) ++
  (if PARAM_WARNING_THRESHOLD ≤ paramCount then
    [createIssue symbol (if PARAM_ERROR_THRESHOLD ≤ paramCount then "warning" else "info")
      "many-parameters"
      ((if symbol.name ≠ "" then symbol.name else "Function") ++ " takes " ++
        toString paramCount ++ " parameters; consider using objects to group data.")]
  else []) ++
  (if BRANCH_WARNING_THRESHOLD ≤ branchCount then
    [createIssue symbol (if BRANCH_ERROR_THRESHOLD ≤ branchCount then "error" else "warning")
      "branch-heavy"
      ((if symbol.name ≠ "" then symbol.name else "Function") ++ " contains " ++
        toString branchCount ++ " conditional/loop branches. Simplify control flow if possible.")]
  else [])

/-- `detectClassSmells(symbol)`. -/
def detectClassSmells (symbol : SymbolEntry) : List SmellIssue :=
  let lineSpan := computeLineSpan symbol
  let methodCount := countClassMethods symbol.text
  (if LONG_FUNCTION_WARNING * 2 ≤ lineSpan then
    [createIssue symbol (if LONG_FUNCTION_ERROR * 2 ≤ lineSpan then "error" else "warning")
      "large-class"
      ((if symbol.name ≠ "" then symbol.name else "Class") ++ " spans " ++
        toString lineSpan ++ " lines. Break responsibilities into smaller classes or components.")]
  else []) ++
  (if LARGE_CLASS_METHOD_WARNING ≤ methodCount then
    [createIssue symbol (if LARGE_CLASS_METHOD_ERROR ≤ methodCount then "error" else "warning")
      "many-methods"
      ((if symbol.name ≠ "" then symbol.name else "Class") ++ " exposes " ++
        toString methodCount ++ " methods. Consider refactoring to reduce surface area.")]
  else [])

/-- The per-symbol issues of `detectCodeSmells` (the `forEach` body). -/
def smellsForSymbol (symbol : SymbolEntry) : List SmellIssue :=
  if symbol.text = "" ∨ symbol.path = "" then []
  else if symbol.kind = "function" ∨ symbol.kind = "component" then
    detectFunctionSmells symbol
  else if symbol.kind = "class" then detectClassSmells symbol
  else []

/-- The structure graph as the smell detector consumes it (only the
`symbols` array is read). -/
structure StructureGraphView where
  symbols : List SymbolEntry
deriving DecidableEq, Repr

/-- `detectCodeSmells(structureGraph)`. -/
def detectCodeSmells (graph : StructureGraphView) : List SmellIssue :=
  graph.symbols.foldl (fun acc symbol => acc ++ smellsForSymbol symbol) []

theorem mem_detectCodeSmells_of_fold :
    ∀ (l : List SymbolEntry) (acc : List SmellIssue) (i : SmellIssue),
      (i ∈ acc ∨ ∃ s ∈ l, i ∈ smellsForSymbol s) →
      i ∈ l.foldl (fun acc symbol => acc ++ smellsForSymbol symbol) acc
  | [], acc, i, h => by
    rcases h with h | ⟨s, hs, -⟩
    · exact h
    · simp at hs
  | s :: rest, acc, i, h => by
    simp only [List.foldl_cons]
    apply mem_detectCodeSmells_of_fold rest (acc ++ smellsForSymbol s) i
    rcases h with h | ⟨s2, hs2, hi⟩
    · exact Or.inl (List.mem_append.mpr (Or.inl h))
    · rcases List.mem_cons.mp hs2 with hs2 | hs2
      · subst hs2
        exact Or.inl (List.mem_append.mpr (Or.inr hi))
      · exact Or.inr ⟨s2, hs2, hi⟩

theorem mem_detectCodeSmells (graph : StructureGraphView) (s : SymbolEntry)
    (hmem : s ∈ graph.symbols) (i : SmellIssue) (hi : i ∈ smellsForSymbol s) :
    i ∈ detectCodeSmells graph :=
  mem_detectCodeSmells_of_fold graph.symbols [] i (Or.inr ⟨s, hmem, hi⟩)

/-- C5 (amended).  A function symbol spanning 120 lines with 30 counted
branches produces a `long-function` issue with severity ERROR (120 ≥ the
error threshold 100) and a `branch-heavy` issue with severity error
(30 ≥ 25).  The unamended claim's `warning` severity for the long-function
issue contradicts the code's own thresholds (see the counterexample). -/
theorem long_and_branch_heavy_error (graph : StructureGraphView) (s : SymbolEntry)
    (hmem : s ∈ graph.symbols) (hkind : s.kind = "function")
    (htext : s.text ≠ "") (hpath : s.path ≠ "")
    (hspan : computeLineSpan s = 120) (hbr : countBranches s.text = 30) :
    (∃ i ∈ detectCodeSmells graph,
      i.type = "long-function" ∧ i.severity = "error" ∧ i.symbolId = s.id) ∧
    (∃ i ∈ detectCodeSmells graph,
      i.type = "branch-heavy" ∧ i.severity = "error" ∧ i.symbolId = s.id) := by
  have hsm : smellsForSymbol s = detectFunctionSmells s := by
    unfold smellsForSymbol
    rw [if_neg (by
      rintro (h | h)
      · exact htext h
      · exact hpath h), if_pos (Or.inl hkind)]
  have hlong : createIssue s "error" "long-function"
      ((if s.name ≠ "" then s.name else "Anonymous function") ++ " spans " ++
        toString (computeLineSpan s) ++ " lines. Consider extracting helpers.") ∈
        detectFunctionSmells s := by
    simp only [detectFunctionSmells, hspan]
    rw [if_pos (by decide : LONG_FUNCTION_WARNING ≤ (120 : Int)),
      if_pos (by decide : LONG_FUNCTION_ERROR ≤ (120 : Int))]
    apply List.mem_append.mpr
    apply Or.inl
    apply List.mem_append.mpr
    apply Or.inl
    exact List.mem_singleton_self _
  have hbranch : createIssue s "error" "branch-heavy"
      ((if s.name ≠ "" then s.name else "Function") ++ " contains " ++
        toString (countBranches s.text) ++
          " conditional/loop branches. Simplify control flow if possible.") ∈
        detectFunctionSmells s := by
    simp only [detectFunctionSmells, hbr]
    rw [if_pos (by decide : BRANCH_WARNING_THRESHOLD ≤ 30),
      if_pos (by decide : BRANCH_ERROR_THRESHOLD ≤ 30)]
    apply List.mem_append.mpr
    apply Or.inr
    exact List.mem_singleton_self _
  refine ⟨⟨_, mem_detectCodeSmells graph s hmem _ (hsm ▸ hlong), rfl, rfl, rfl⟩,
    ⟨_, mem_detectCodeSmells graph s hmem _ (hsm ▸ hbranch), rfl, rfl, rfl⟩⟩

/-- The C5 fixture: a 120-line function (`startLine 1`, `endLine 120`)
whose text contains exactly 30 `if` branches. -/
def c5symbol : SymbolEntry :=
  { id := "function:util.js#bigFn", fileId := "file:util.js", name := "bigFn"
    kind := "function", path := "util.js", language := "JavaScript"
    startLine := 1, endLine := 120
    text := "if if if if if if if if if if if if if if if if if if if if if if if if if if if if if if" }

/-- C5 counterexample: for the 120-line, 30-branch function the smell
detector emits the `long-function` issue with severity `error`
(120 ≥ LONG_FUNCTION_ERROR = 100), never with the claimed `warning`. -/
theorem long_function_severity_counterexample :
    computeLineSpan c5symbol = 120 ∧ countBranches c5symbol.text = 30 ∧
    (∃ i ∈ detectCodeSmells { symbols := [c5symbol] }, i.type = "long-function") ∧
    (∀ i ∈ detectCodeSmells { symbols := [c5symbol] },
      i.type = "long-function" → i.severity = "error") ∧
    (∀ i ∈ detectCodeSmells { symbols := [c5symbol] },
      i.type = "long-function" → ¬ i.severity = "warning") := by
  decide

theorem long_and_branch_heavy_error_witness :
    (∃ i ∈ detectCodeSmells { symbols := [c5symbol] },
      i.type = "long-function" ∧ i.severity = "error" ∧ i.symbolId = c5symbol.id) ∧
    (∃ i ∈ detectCodeSmells { symbols := [c5symbol] },
      i.type = "branch-heavy" ∧ i.severity = "error" ∧ i.symbolId = c5symbol.id) :=
  long_and_branch_heavy_error { symbols := [c5symbol] } c5symbol (by decide)
    (by decide) (by decide) (by decide) (by decide) (by decide)

/-! ## POSIX path resolution

Node's `path.resolve` on the POSIX hosts the analyzer and server run on.
The embedding covers the case the code exercises: the base path (the
analysis root) is absolute, so `resolve` never has to consult the process
working directory. -/

/-- Split a character list on `/` (keeping empty segments). -/
def splitSlashGo (cur : List Char) : List Char → List (List Char)
  | [] => [cur.reverse]
  | c :: t =>
    if c = '/' then cur.reverse :: splitSlashGo [] t
    else splitSlashGo (c :: cur) t

def splitSlash (l : List Char) : List (List Char) := splitSlashGo [] l

/-- Normalization stack for path segments: empty and `.` segments are
dropped, `..` pops the last kept segment (and is dropped at the root).
`acc` holds the kept segments in reverse. -/
def resolveSegs (acc : List (List Char)) : List (List Char) → List (List Char)
  | [] => acc.reverse
  | s :: rest =>
    if s = [] ∨ s = ['.'] then resolveSegs acc rest
    else if s = ['.', '.'] then resolveSegs acc.tail rest
    else resolveSegs (s :: acc) rest

def joinSlash : List (List Char) → List Char
  | [] => []
  | [s] => s
  | s :: rest => s ++ '/' :: joinSlash rest

/-- Normalize an absolute POSIX path (`path.resolve(p)` for absolute `p`). -/
def posixNormalizeAbs (p : String) : String :=
  String.mk ('/' :: joinSlash (resolveSegs [] (splitSlash p.toList)))

/-- `path.resolve(base, p)` with `base` absolute: an absolute `p` is
normalized on its own, a relative `p` is joined onto `base` first. -/
def posixResolve (base p : String) : String :=
  if p.toList.head? = some '/' then posixNormalizeAbs p
  else posixNormalizeAbs (base ++ "/" ++ p)

/-! ## Language detection (language.js) -/

/-- The `EXTENSION_TO_LANGUAGE` map. -/
def EXTENSION_TO_LANGUAGE : List (String × String) :=
  [(".js", "JavaScript"), (".jsx", "JavaScript"), (".ts", "TypeScript"),
   (".tsx", "TypeScript"), (".mjs", "JavaScript"), (".cjs", "JavaScript"),
   (".json", "JSON"), (".py", "Python"), (".rb", "Ruby"), (".java", "Java"),
   (".kt", "Kotlin"), (".swift", "Swift"), (".go", "Go"), (".rs", "Rust"),
   (".php", "PHP"), (".cs", "C#"), (".cpp", "C++"), (".cc", "C++"),
   (".c", "C"), (".h", "C/C++ Header"), (".hpp", "C++ Header"),
   (".sql", "SQL"), (".yml", "YAML"), (".yaml", "YAML"), (".toml", "TOML"),
   (".md", "Markdown"), (".vue", "Vue"), (".svelte", "Svelte"),
   (".scss", "SCSS"), (".css", "CSS"), (".html", "HTML"), (".xml", "XML"),
   (".sh", "Shell"), (".bash", "Shell"), (".zsh", "Shell"),
   (".ps1", "PowerShell")]

/-- `detectLanguage(ext)`: table lookup on the lowercased extension,
falling back to `"Unknown"` (every table value is truthy). -/
def detectLanguage (ext : String) : String :=
  (alistGet EXTENSION_TO_LANGUAGE (strLower ext)).getD "Unknown"

/-! ## File metrics pass (fileMetrics.js) -/

def DEFAULT_MAX_FILE_SIZE : Nat := 512 * 1024

/-- `\b=>\b`: `=` and `>` are non-word characters, so the leading word
boundary requires a word character immediately before the match and the
trailing one a word character immediately after. -/
def matchArrow (prev : Option Char) (l : List Char) : Option (List Char) :=
  match prev with
  | some p =>
    if isTokenChar p then
      match dropLit ['=', '>'] l with
      | some rest =>
        match rest with
        | [] => none
        | c :: _ => if isTokenChar c then some rest else none
      | none => none
    else none
  | none => none

/-- Ordered alternation of the decision-point regex
`\b(if|else if|for|while|case|catch|throw|function|class|=>|switch)\b`
(note the literal single space in `else if`). -/
def decisionTry (prev : Option Char) (l : List Char) : Option (List Char) :=
  (matchWordLit ['i', 'f'] prev l).orElse fun _ =>
  (matchWordLit ['e', 'l', 's', 'e', ' ', 'i', 'f'] prev l).orElse fun _ =>
  (matchWordLit ['f', 'o', 'r'] prev l).orElse fun _ =>
  (matchWordLit ['w', 'h', 'i', 'l', 'e'] prev l).orElse fun _ =>
  (matchWordLit ['c', 'a', 's', 'e'] prev l).orElse fun _ =>
  (matchWordLit ['c', 'a', 't', 'c', 'h'] prev l).orElse fun _ =>
  (matchWordLit ['t', 'h', 'r', 'o', 'w'] prev l).orElse fun _ =>
  (matchWordLit ['f', 'u', 'n', 'c', 't', 'i', 'o', 'n'] prev l).orElse fun _ =>
  (matchWordLit ['c', 'l', 'a', 's', 's'] prev l).orElse fun _ =>
  (matchArrow prev l).orElse fun _ =>
  matchWordLit ['s', 'w', 'i', 't', 'c', 'h'] prev l

/-- Ordered alternation of `\b(TODO|FIXME|HACK|XXX)\b`. -/
def todoTry (prev : Option Char) (l : List Char) : Option (List Char) :=
  (matchWordLit ['T', 'O', 'D', 'O'] prev l).orElse fun _ =>
  (matchWordLit ['F', 'I', 'X', 'M', 'E'] prev l).orElse fun _ =>
  (matchWordLit ['H', 'A', 'C', 'K'] prev l).orElse fun _ =>
  matchWordLit ['X', 'X', 'X'] prev l

/-- `countMatches(value, regex)` for a compiled ordered-alternation
matcher (`String.prototype.match` with a global regex). -/
def countMatches (tryM : Option Char → List Char → Option (List Char))
    (value : String) : Nat :=
  scanCount tryM value.toList.length none value.toList 0

/-- The `while (count >= 1024 && index < units.length - 1)` loop of
`formatBytes`; the divisions by 1024 are exact on the binary doubles the
code uses, so `ℚ` models them exactly.  Fuel: `index` grows every
iteration and the guard caps it below 3, so 3 iterations suffice. -/
def formatBytesLoop : Nat → ℚ → Nat → ℚ × Nat
  | 0, count, index => (count, index)
  | fuel + 1, count, index =>
    if 1024 ≤ count ∧ index < 3 then formatBytesLoop fuel (count / 1024) (index + 1)
    else (count, index)

/-- `units[index]` for `units = ['B', 'KB', 'MB', 'GB']`. -/
def unitsName : Nat → String
  | 0 => "B"
  | 1 => "KB"
  | 2 => "MB"
  | _ => "GB"

/-- `count.toFixed(1)` for the nonnegative dyadic rationals `formatBytes`
produces (exactly representable as doubles): nearest multiple of `1/10`,
ties up. -/
def toFixed1 (q : ℚ) : String :=
  let n : Int := Int.floor (q * 10 + 1 / 2)
  toString (n / 10) ++ "." ++ toString (n % 10)

/-- `formatBytes(bytes)`. -/
def formatBytes (bytes : Nat) : String :=
  let r := formatBytesLoop 3 (bytes : ℚ) 0
  toFixed1 r.1 ++ " " ++ unitsName r.2

/-- One record of the `files` array the traversal hands to the metrics
pass (the fields `computeFileMetrics` reads). -/
structure FileEntry where
  path : String
  ext : String
  size : Nat
deriving DecidableEq, Repr

/-- The per-file metrics record; `none` models the `null` placeholders of
skipped files. -/
structure FileMetricsRec where
  language : String
  size : Nat
  lineCount : Option Nat
  complexityScore : Option ℚ
  todoCount : Nat
  skipped : Bool
deriving DecidableEq, Repr

structure MetricIssue where
  severity : String
  type : String
  path : String
  message : String
deriving DecidableEq, Repr

structure FileMetricsResult where
  metricsByFile : List (String × FileMetricsRec)
  issues : List MetricIssue
deriving DecidableEq, Repr

/-- The body of the `for (const file of files)` loop of
`computeFileMetrics`: the metrics record stored for `file` and the issues
appended for it, in order.  `readFile` abstracts `fs.readFileSync(·,
"utf8")` (`Except.error` is the thrown error's message); the
`complexityScore` message renders the rational with `toString`. -/
def processFileMetrics (readFile : String → Except String String)
    (rootPath : String) (maxFileSize : Nat) (file : FileEntry) :
    FileMetricsRec × List MetricIssue :=
  let absPath := posixResolve rootPath file.path
  let base : FileMetricsRec :=
    { language := detectLanguage file.ext, size := file.size,
      lineCount := none, complexityScore := none, todoCount := 0,
      skipped := false }
  if maxFileSize < file.size then
    ({ base with skipped := true },
      [{ severity := "info", type := "file-too-large", path := file.path,
         message := "Skipped reading " ++ file.path ++ " (" ++
           formatBytes file.size ++ ") to keep analysis fast." }])
  else
    match readFile absPath with
    | Except.error e =>
      ({ base with skipped := true },
        [{ severity := "warning", type := "file-read-error", path := file.path,
           message := "Could not read file: " ++ e }])
    | Except.ok content =>
      let lineCount := jsSplitParts content.toList
      let decisionPoints := countMatches decisionTry content
      let todoCount := countMatches todoTry content
      let complexityScore : ℚ :=
        if lineCount ≠ 0 then round2 ((decisionPoints : ℚ) / (lineCount : ℚ) * 100)
        else 0
      ({ base with
          lineCount := some lineCount
          todoCount := todoCount
          complexityScore := some complexityScore },
        (if 300 < lineCount then
          [{ severity := "warning", type := "large-file", path := file.path,
             message := file.path ++ " has " ++ toString lineCount ++
               " lines; consider breaking it down." }] else []) ++
        (if 35 < complexityScore then
          [{ severity := "warning", type := "high-complexity", path := file.path,
             message := file.path ++ " has high decision density (" ++
               toString complexityScore ++ " decisions per 100 lines)." }] else []) ++
        (if 0 < todoCount then
          [{ severity := "info", type := "todo-comments", path := file.path,
             message := toString todoCount ++ " TODO-like comments found." }] else []))

/-- One loop iteration: record the metrics under `file.path` and append
the file's issues. -/
def cfmStep (readFile : String → Except String String) (rootPath : String)
    (maxFileSize : Nat) (acc : FileMetricsResult) (file : FileEntry) :
    FileMetricsResult :=
  { metricsByFile :=
      mapSet acc.metricsByFile file.path
        (processFileMetrics readFile rootPath maxFileSize file).1,
    issues := acc.issues ++ (processFileMetrics readFile rootPath maxFileSize file).2 }

/-- `computeFileMetrics(rootPath, files, options)`; `maxFileSizeOpt`
models `options.maxFileSize` (`none` = option absent → default 512 KiB). -/
def computeFileMetrics (readFile : String → Except String String)
    (rootPath : String) (files : List FileEntry)
    (maxFileSizeOpt : Option Nat) : FileMetricsResult :=
  let maxFileSize := maxFileSizeOpt.getD DEFAULT_MAX_FILE_SIZE
  files.foldl (cfmStep readFile rootPath maxFileSize)
    { metricsByFile := [], issues := [] }

/-- The concatenation of the per-file issue lists, in file order. -/
def perFileIssues (readFile : String → Except String String)
    (rootPath : String) (maxFileSize : Nat) : List FileEntry → List MetricIssue
  | [] => []
  | f :: rest =>
    (processFileMetrics readFile rootPath maxFileSize f).2 ++
      perFileIssues readFile rootPath maxFileSize rest

theorem processFileMetrics_large (rf : String → Except String String)
    (root : String) (mfs : Nat) (g : FileEntry) (hsz : mfs < g.size) :
    processFileMetrics rf root mfs g =
      ({ language := detectLanguage g.ext, size := g.size, lineCount := none,
         complexityScore := none, todoCount := 0, skipped := true },
       [{ severity := "info", type := "file-too-large", path := g.path,
          message := "Skipped reading " ++ g.path ++ " (" ++
            formatBytes g.size ++ ") to keep analysis fast." }]) := by
  simp [processFileMetrics, hsz]

theorem processFileMetrics_err (rf : String → Except String String)
    (root : String) (mfs : Nat) (g : FileEntry) (e : String)
    (hsz : ¬ mfs < g.size) (hrf : rf (posixResolve root g.path) = Except.error e) :
    processFileMetrics rf root mfs g =
      ({ language := detectLanguage g.ext, size := g.size, lineCount := none,
         complexityScore := none, todoCount := 0, skipped := true },
       [{ severity := "warning", type := "file-read-error", path := g.path,
          message := "Could not read file: " ++ e }]) := by
  simp [processFileMetrics, hsz, hrf]

theorem processFileMetrics_ok (rf : String → Except String String)
    (root : String) (mfs : Nat) (g : FileEntry) (content : String)
    (hsz : ¬ mfs < g.size) (hrf : rf (posixResolve root g.path) = Except.ok content) :
    processFileMetrics rf root mfs g =
      ({ language := detectLanguage g.ext, size := g.size,
         lineCount := some (jsSplitParts content.toList),
         complexityScore := some (if jsSplitParts content.toList ≠ 0 then
           round2 ((countMatches decisionTry content : ℚ) /
             (jsSplitParts content.toList : ℚ) * 100) else 0),
         todoCount := countMatches todoTry content, skipped := false },
       (if 300 < jsSplitParts content.toList then
         [{ severity := "warning", type := "large-file", path := g.path,
            message := g.path ++ " has " ++ toString (jsSplitParts content.toList) ++
              " lines; consider breaking it down." }] else []) ++
       (if 35 < (if jsSplitParts content.toList ≠ 0 then
           round2 ((countMatches decisionTry content : ℚ) /
             (jsSplitParts content.toList : ℚ) * 100) else (0 : ℚ)) then
         [{ severity := "warning", type := "high-complexity", path := g.path,
            message := g.path ++ " has high decision density (" ++
              toString (if jsSplitParts content.toList ≠ 0 then
                round2 ((countMatches decisionTry content : ℚ) /
                  (jsSplitParts content.toList : ℚ) * 100) else (0 : ℚ)) ++
              " decisions per 100 lines)." }] else []) ++
       (if 0 < countMatches todoTry content then
         [{ severity := "info", type := "todo-comments", path := g.path,
            message := toString (countMatches todoTry content) ++
              " TODO-like comments found." }] else [])) := by
  simp [processFileMetrics, hsz, hrf]

theorem mem_if_singleton {α : Type} {c : Prop} [Decidable c] {x i : α}
    (h : i ∈ (if c then [x] else [])) : i = x := by
  split at h
  · exact List.mem_singleton.mp h
  · exact absurd h (List.not_mem_nil i)

theorem processFileMetrics_issue_path (rf : String → Except String String)
    (root : String) (mfs : Nat) (g : FileEntry) :
    ∀ i ∈ (processFileMetrics rf root mfs g).2, i.path = g.path := by
  intro i hi
  by_cases hc : mfs < g.size
  · rw [processFileMetrics_large rf root mfs g hc] at hi
    rw [List.mem_singleton.mp hi]
  · rcases hrf : rf (posixResolve root g.path) with e | content
    · rw [processFileMetrics_err rf root mfs g e hc hrf] at hi
      rw [List.mem_singleton.mp hi]
    · rw [processFileMetrics_ok rf root mfs g content hc hrf] at hi
      rcases List.mem_append.mp hi with h12 | h3
      · rcases List.mem_append.mp h12 with h1 | h2
        · rw [mem_if_singleton h1]
        · rw [mem_if_singleton h2]
      · rw [mem_if_singleton h3]

theorem cfm_fold_issues (rf : String → Except String String) (root : String)
    (mfs : Nat) :
    ∀ (files : List FileEntry) (acc : FileMetricsResult),
      (files.foldl (cfmStep rf root mfs) acc).issues
        = acc.issues ++ perFileIssues rf root mfs files
  | [], acc => by simp [perFileIssues]
  | f :: rest, acc => by
    simp only [List.foldl_cons, perFileIssues]
    rw [cfm_fold_issues rf root mfs rest]
    simp [cfmStep, List.append_assoc]

theorem computeFileMetrics_issues (rf : String → Except String String)
    (root : String) (files : List FileEntry) :
    (computeFileMetrics rf root files none).issues
      = perFileIssues rf root DEFAULT_MAX_FILE_SIZE files := by
  show (files.foldl (cfmStep rf root DEFAULT_MAX_FILE_SIZE)
    { metricsByFile := [], issues := [] }).issues = _
  rw [cfm_fold_issues]
  rfl

theorem cfm_fold_lookup_frozen (rf : String → Except String String)
    (root : String) (mfs : Nat) :
    ∀ (files : List FileEntry) (acc : FileMetricsResult) (p : String),
      (∀ g ∈ files, g.path ≠ p) →
      alistGet ((files.foldl (cfmStep rf root mfs) acc).metricsByFile) p
        = alistGet acc.metricsByFile p
  | [], _, _, _ => rfl
  | f :: rest, acc, p, h => by
    simp only [List.foldl_cons]
    rw [cfm_fold_lookup_frozen rf root mfs rest _ p
      (fun g hg => h g (List.mem_cons_of_mem f hg))]
    show alistGet (mapSet acc.metricsByFile f.path _) p = _
    rw [mapSet_lookup, if_neg (fun hh : p = f.path =>
      h f (List.mem_cons_self f rest) hh.symm)]

theorem cfm_fold_lookup (rf : String → Except String String) (root : String)
    (mfs : Nat) :
    ∀ (files : List FileEntry) (acc : FileMetricsResult) (f : FileEntry),
      f ∈ files → (files.map FileEntry.path).Nodup →
      alistGet ((files.foldl (cfmStep rf root mfs) acc).metricsByFile) f.path
        = some (processFileMetrics rf root mfs f).1
  | [], _, f, hf, _ => absurd hf (List.not_mem_nil f)
  | g :: rest, acc, f, hf, hnd => by
    simp only [List.map_cons, List.nodup_cons] at hnd
    rcases List.mem_cons.mp hf with hfg | hfr
    · subst hfg
      simp only [List.foldl_cons]
      rw [cfm_fold_lookup_frozen rf root mfs rest _ f.path
        (fun g' hg' hh => hnd.1 (by rw [← hh]; exact List.mem_map_of_mem FileEntry.path hg'))]
      show alistGet (mapSet acc.metricsByFile f.path _) f.path = _
      rw [mapSet_lookup, if_pos rfl]
    · simp only [List.foldl_cons]
      exact cfm_fold_lookup rf root mfs rest _ f hfr hnd.2

theorem computeFileMetrics_lookup (rf : String → Except String String)
    (root : String) (files : List FileEntry) (f : FileEntry)
    (hf : f ∈ files) (hnd : (files.map FileEntry.path).Nodup) :
    alistGet (computeFileMetrics rf root files none).metricsByFile f.path
      = some (processFileMetrics rf root DEFAULT_MAX_FILE_SIZE f).1 :=
  cfm_fold_lookup rf root DEFAULT_MAX_FILE_SIZE files
    { metricsByFile := [], issues := [] } f hf hnd

theorem perFileIssues_filter_none (rf : String → Except String String)
    (root : String) (mfs : Nat) (q : MetricIssue → Bool) (p : String)
    (hq : ∀ i, q i = true → i.path = p) :
    ∀ (files : List FileEntry), (∀ g ∈ files, g.path ≠ p) →
      (perFileIssues rf root mfs files).filter q = []
  | [], _ => rfl
  | g :: rest, h => by
    simp only [perFileIssues, List.filter_append]
    rw [perFileIssues_filter_none rf root mfs q p hq rest
      (fun g' hg' => h g' (List.mem_cons_of_mem g hg')), List.append_nil]
    rw [List.filter_eq_nil_iff]
    intro i hi hqi
    have h1 : i.path = g.path := processFileMetrics_issue_path rf root mfs g i hi
    have h2 : i.path = p := hq i hqi
    exact h g (List.mem_cons_self g rest) (by rw [← h1]; exact h2)

theorem perFileIssues_filter_mem (rf : String → Except String String)
    (root : String) (mfs : Nat) (q : MetricIssue → Bool) :
    ∀ (files : List FileEntry) (f : FileEntry), f ∈ files →
      (files.map FileEntry.path).Nodup →
      (∀ i, q i = true → i.path = f.path) →
      (perFileIssues rf root mfs files).filter q
        = ((processFileMetrics rf root mfs f).2).filter q
  | [], f, hf, _, _ => absurd hf (List.not_mem_nil f)
  | g :: rest, f, hf, hnd, hq => by
    simp only [List.map_cons, List.nodup_cons] at hnd
    simp only [perFileIssues, List.filter_append]
    rcases List.mem_cons.mp hf with hfg | hfr
    · subst hfg
      rw [perFileIssues_filter_none rf root mfs q f.path hq rest
        (fun g' hg' hh => hnd.1 (by rw [← hh]; exact List.mem_map_of_mem FileEntry.path hg')),
        List.append_nil]
    · have hgp : g.path ≠ f.path := fun hh =>
        hnd.1 (by rw [hh]; exact List.mem_map_of_mem FileEntry.path hfr)
      have hfil : ((processFileMetrics rf root mfs g).2).filter q = [] := by
        rw [List.filter_eq_nil_iff]
        intro i hi hqi
        have h1 : i.path = g.path := processFileMetrics_issue_path rf root mfs g i hi
        exact hgp (by rw [← h1]; exact hq i hqi)
      rw [hfil, List.nil_append]
      exact perFileIssues_filter_mem rf root mfs q rest f hfr hnd.2 hq

theorem processFileMetrics_congr (rf rf' : String → Except String String)
    (root : String) (mfs : Nat) (g : FileEntry)
    (h : ¬ mfs < g.size → rf (posixResolve root g.path) = rf' (posixResolve root g.path)) :
    processFileMetrics rf root mfs g = processFileMetrics rf' root mfs g := by
  by_cases hc : mfs < g.size
  · simp [processFileMetrics, hc]
  · simp [processFileMetrics, hc, h hc]

theorem cfm_fold_congr (rf rf' : String → Except String String) (root : String)
    (mfs : Nat) :
    ∀ (files : List FileEntry) (acc : FileMetricsResult),
      (∀ g ∈ files, ¬ mfs < g.size →
        rf (posixResolve root g.path) = rf' (posixResolve root g.path)) →
      files.foldl (cfmStep rf root mfs) acc = files.foldl (cfmStep rf' root mfs) acc
  | [], _, _ => rfl
  | g :: rest, acc, h => by
    simp only [List.foldl_cons]
    have hstep : cfmStep rf root mfs acc g = cfmStep rf' root mfs acc g := by
      unfold cfmStep
      rw [processFileMetrics_congr rf rf' root mfs g (h g (List.mem_cons_self g rest))]
    rw [hstep]
    exact cfm_fold_congr rf rf' root mfs rest _
      (fun g' hg' => h g' (List.mem_cons_of_mem g hg'))

theorem computeFileMetrics_congr (rf rf' : String → Except String String)
    (root : String) (files : List FileEntry)
    (h : ∀ g ∈ files, g.size ≤ DEFAULT_MAX_FILE_SIZE →
      rf (posixResolve root g.path) = rf' (posixResolve root g.path)) :
    computeFileMetrics rf root files none = computeFileMetrics rf' root files none :=
  cfm_fold_congr rf rf' root DEFAULT_MAX_FILE_SIZE files
    { metricsByFile := [], issues := [] }
    (fun g hg hlt => h g hg (Nat.not_lt.mp hlt))

/-- C7.  Size gate of the metrics pass: a file of at most 512 KiB
(the boundary included) is read and its record is populated with
`lineCount`, `complexityScore` and `todoCount`; a file even one byte
larger is never read (the output is unchanged under any replacement of
the reader on the skipped files), its record keeps the `null`
placeholders with `skipped = true`, and exactly one issue is emitted for
it: the info-severity `file-too-large` one.  File paths are assumed
distinct, as produced by the traversal. -/
theorem file_size_gate (rf rf' : String → Except String String)
    (rootPath : String) (files : List FileEntry) (f : FileEntry)
    (hnd : (files.map FileEntry.path).Nodup) (hf : f ∈ files) :
    (∀ content, f.size ≤ DEFAULT_MAX_FILE_SIZE →
      rf (posixResolve rootPath f.path) = Except.ok content →
      alistGet (computeFileMetrics rf rootPath files none).metricsByFile f.path
        = some { language := detectLanguage f.ext
                 size := f.size
                 lineCount := some (jsSplitParts content.toList)
                 complexityScore := some (if jsSplitParts content.toList ≠ 0 then
                   round2 ((countMatches decisionTry content : ℚ) /
                     (jsSplitParts content.toList : ℚ) * 100) else 0)
                 todoCount := countMatches todoTry content
                 skipped := false }) ∧
    (DEFAULT_MAX_FILE_SIZE < f.size →
      alistGet (computeFileMetrics rf rootPath files none).metricsByFile f.path
        = some { language := detectLanguage f.ext
                 size := f.size
                 lineCount := none
                 complexityScore := none
                 todoCount := 0
                 skipped := true } ∧
      ∃ msg, ((computeFileMetrics rf rootPath files none).issues.filter
          (fun i => i.path == f.path))
        = [{ severity := "info"
             type := "file-too-large"
             path := f.path
             message := msg }]) ∧
    ((∀ g ∈ files, g.size ≤ DEFAULT_MAX_FILE_SIZE →
        rf (posixResolve rootPath g.path) = rf' (posixResolve rootPath g.path)) →
      computeFileMetrics rf rootPath files none
        = computeFileMetrics rf' rootPath files none) := by
  refine ⟨?_, ?_, ?_⟩
  · intro content hsz hrf
    rw [computeFileMetrics_lookup rf rootPath files f hf hnd,
      processFileMetrics_ok rf rootPath DEFAULT_MAX_FILE_SIZE f content
        (Nat.not_lt.mpr hsz) hrf]
  · intro hsz
    constructor
    · rw [computeFileMetrics_lookup rf rootPath files f hf hnd,
        processFileMetrics_large rf rootPath DEFAULT_MAX_FILE_SIZE f hsz]
    · refine ⟨"Skipped reading " ++ f.path ++ " (" ++ formatBytes f.size ++
        ") to keep analysis fast.", ?_⟩
      rw [computeFileMetrics_issues,
        perFileIssues_filter_mem rf rootPath DEFAULT_MAX_FILE_SIZE _ files f hf hnd
          (fun i h => by simpa using h),
        processFileMetrics_large rf rootPath DEFAULT_MAX_FILE_SIZE f hsz]
      simp [List.filter]
  · exact computeFileMetrics_congr rf rf' rootPath files

/-- C7 fixture reader: `a.js` resolves and reads, everything else errors. -/
def c7read : String → Except String String :=
  fun p => if p = "/r/a.js" then Except.ok "if (x) { /* TODO */ }"
    else Except.error "ENOENT"

def c7small : FileEntry := { path := "a.js", ext := ".js", size := 10 }

/-- One byte above the 512 KiB limit. -/
def c7big : FileEntry := { path := "b.md", ext := ".md", size := 524289 }

def c7files : List FileEntry := [c7small, c7big]

theorem file_size_gate_witness :
    (alistGet (computeFileMetrics c7read "/r" c7files none).metricsByFile c7small.path
      = some { language := detectLanguage c7small.ext
               size := c7small.size
               lineCount := some (jsSplitParts "if (x) { /* TODO */ }".toList)
               complexityScore := some (if jsSplitParts "if (x) { /* TODO */ }".toList ≠ 0 then
                 round2 ((countMatches decisionTry "if (x) { /* TODO */ }" : ℚ) /
                   (jsSplitParts "if (x) { /* TODO */ }".toList : ℚ) * 100) else 0)
               todoCount := countMatches todoTry "if (x) { /* TODO */ }"
               skipped := false }) ∧
    (alistGet (computeFileMetrics c7read "/r" c7files none).metricsByFile c7big.path
      = some { language := detectLanguage c7big.ext
               size := c7big.size
               lineCount := none
               complexityScore := none
               todoCount := 0
               skipped := true } ∧
      ∃ msg, ((computeFileMetrics c7read "/r" c7files none).issues.filter
          (fun i => i.path == c7big.path))
        = [{ severity := "info"
             type := "file-too-large"
             path := c7big.path
             message := msg }]) :=
  ⟨(file_size_gate c7read c7read "/r" c7files c7small (by decide) (by decide)).1
      "if (x) { /* TODO */ }" (by decide) rfl,
    (file_size_gate c7read c7read "/r" c7files c7big (by decide) (by decide)).2.1
      (by decide)⟩

/-! ## Symbol-extraction fallback (structureGraph.js) -/

def MAX_SYMBOL_BYTES : Nat := 128 * 1024

/-- Node `path.basename` (POSIX): strip trailing slashes, then keep the
part after the last remaining slash; an all-slash path gives `"/"`. -/
def posixBasename (p : String) : String :=
  let l := p.toList
  let stripped := (l.reverse.dropWhile (· = '/')).reverse
  if stripped.isEmpty then (if l.isEmpty then "" else "/")
  else String.mk ((stripped.reverse.takeWhile (· ≠ '/')).reverse)

/-- `createFallbackSymbol(content, relativePath, language)`: blank content
(empty or whitespace-only, JS truthiness of `content` and
`content.trim()`) yields no symbol; otherwise one `kind = "file"` symbol
spanning the whole file.  `content.slice(0, MAX_SYMBOL_BYTES)` is modelled
on characters. -/
def createFallbackSymbol (content relativePath language : String) :
    List SymbolEntry :=
  if content = "" ∨ String.mk (jsTrim content.toList) = "" then []
  else
    let normalizedPath := normalizePath relativePath
    let snippet := String.mk (content.toList.take MAX_SYMBOL_BYTES)
    let totalLines := (buildLineOffsets content).length
    [{ id := "file:" ++ normalizedPath ++ "#__file__"
       fileId := "file:" ++ normalizedPath
       name := if posixBasename normalizedPath ≠ "" then posixBasename normalizedPath
         else normalizedPath
       kind := "file"
       path := normalizedPath
       language := language
       startLine := 1
       endLine := (totalLines : Int)
       text := snippet }]

/-- In-place overwrite at the first entry with the candidate's id
(`unique[existingIndex] = entry` when the candidate's text is longer). -/
def dedupeReplace (unique : List SymbolEntry) (entry : SymbolEntry) :
    List SymbolEntry :=
  match unique with
  | [] => []
  | u :: rest =>
    if u.id = entry.id then
      (if u.text.length < entry.text.length then entry else u) :: rest
    else u :: dedupeReplace rest entry

/-- `dedupeById(entries)`: keep the first entry per id (skipping falsy
ids), replacing it in place when a later duplicate has longer text. -/
def dedupeById (entries : List SymbolEntry) : List SymbolEntry :=
  entries.foldl
    (fun unique entry =>
      if entry.id = "" then unique
      else if unique.any (fun u => u.id = entry.id) then dedupeReplace unique entry
      else unique ++ [entry])
    []

/-- `extractSymbolsFromContent(content, relativePath, language)`.
`astEntries` abstracts the Babel parse plus the `traverse` collection of
top-level class/function entries: `none` is a thrown parse error, `some
entries` the collected array. -/
def extractSymbolsFromContent (astEntries : String → Option (List SymbolEntry))
    (content relativePath language : String) : List SymbolEntry :=
  let isJs := language = "JavaScript" ∨ language = "TypeScript"
  if ¬ isJs then createFallbackSymbol content relativePath language
  else
    match astEntries content with
    | none => createFallbackSymbol content relativePath language
    | some entries =>
      if entries.length = 0 then createFallbackSymbol content relativePath language
      else dedupeById entries

/-- C8 (amended).  For a file outside the JS/TypeScript family, or a
JS/TS file whose AST parse fails, symbol extraction yields exactly one
fallback symbol — `kind = "file"`, id `"file:{path}#__file__"`, spanning
line 1 to the file's total line count — PROVIDED the content is not blank:
empty or whitespace-only content yields no symbol at all (see the
counterexample refuting the unamended universal claim). -/
theorem fallback_symbol_single (astEntries : String → Option (List SymbolEntry))
    (content relativePath language : String)
    (hblank : String.mk (jsTrim content.toList) ≠ "")
    (hcase : (language ≠ "JavaScript" ∧ language ≠ "TypeScript") ∨
      astEntries content = none) :
    extractSymbolsFromContent astEntries content relativePath language
      = [{ id := "file:" ++ normalizePath relativePath ++ "#__file__"
           fileId := "file:" ++ normalizePath relativePath
           name := if posixBasename (normalizePath relativePath) ≠ "" then
             posixBasename (normalizePath relativePath) else normalizePath relativePath
           kind := "file"
           path := normalizePath relativePath
           language := language
           startLine := 1
           endLine := ((buildLineOffsets content).length : Int)
           text := String.mk (content.toList.take MAX_SYMBOL_BYTES) }] := by
  have hc1 : ¬ content = "" := fun h => hblank (by rw [h]; decide)
  by_cases hjs : language = "JavaScript" ∨ language = "TypeScript"
  · have hn : astEntries content = none := by
      rcases hcase with ⟨h1, h2⟩ | hn
      · rcases hjs with h | h
        · exact absurd h h1
        · exact absurd h h2
      · exact hn
    simp [extractSymbolsFromContent, hjs, hn, createFallbackSymbol]
    exact ⟨hc1, hblank⟩
  · simp [extractSymbolsFromContent, hjs, createFallbackSymbol]
    exact ⟨hc1, hblank⟩

/-- C8 counterexample: a whitespace-only (or empty) non-JS file produces
NO fallback symbol — `createFallbackSymbol` returns an empty array on
blank content — refuting the claim's "every file not in the JS/TypeScript
family" scope. -/
theorem fallback_blank_counterexample :
    extractSymbolsFromContent (fun _ => none) "" "notes.txt" "Markdown" = [] ∧
    extractSymbolsFromContent (fun _ => none) "  \n " "notes.txt" "Markdown" = [] ∧
    "Markdown" ≠ "JavaScript" ∧ "Markdown" ≠ "TypeScript" := by
  decide

theorem fallback_symbol_single_witness :
    extractSymbolsFromContent (fun _ => none) "# Title\nText" "docs\\readme.md"
        "Markdown"
      = [{ id := "file:docs/readme.md#__file__"
           fileId := "file:docs/readme.md"
           name := "readme.md"
           kind := "file"
           path := "docs/readme.md"
           language := "Markdown"
           startLine := 1
           endLine := 2
           text := "# Title\nText" }] := by
  rw [fallback_symbol_single (fun _ => none) "# Title\nText" "docs\\readme.md"
    "Markdown" (by decide) (Or.inl ⟨by decide, by decide⟩)]
  decide

/-! ## Source-snippet reader (server.js) -/

/-- An `fs.statSync`/`fs.readSync` view of one path: whether it is a
regular file, and its byte content (`size = bytes.length`). -/
structure FsNode where
  isFile : Bool
  bytes : List Nat
deriving DecidableEq, Repr

/-- The snippet record; `content` is the first `min(size, limit)` bytes
(the UTF-8 decode step is the identity on the byte slice it returns). -/
structure Snippet where
  path : String
  size : Nat
  content : List Nat
  truncated : Bool
deriving DecidableEq, Repr

/-- The errors `readSourceSnippet` throws: `accessDenied` is the
`statusCode = 403` "Access denied" error, `notAFile` the
`statusCode = 400` "Not a file" error, `statError` a propagated
`fs.statSync` failure (path absent). -/
inductive SnippetError where
  | accessDenied
  | notAFile
  | statError
deriving DecidableEq, Repr

/-- `s.startsWith(pre)`. -/
def strStartsWith (s pre : String) : Bool :=
  pre.toList.isPrefixOf s.toList

/-- `readSourceSnippet(rootPath, relativePath, maxBytes)` over an abstract
filesystem `fs` (`none` = `statSync` throws).  The root the server passes
is absolute, so `path.resolve` is the POSIX normalization. -/
def readSourceSnippet (fs : String → Option FsNode)
    (rootPath relativePath : String) (maxBytes : Nat) :
    Except SnippetError Snippet :=
  let absRoot := posixNormalizeAbs rootPath
  let absFile := posixResolve absRoot relativePath
  if !strStartsWith absFile absRoot then Except.error SnippetError.accessDenied
  else
    match fs absFile with
    | none => Except.error SnippetError.statError
    | some node =>
      if !node.isFile then Except.error SnippetError.notAFile
      else
        let limit := max 1024 (min maxBytes (512 * 1024))
        let size := min limit node.bytes.length
        Except.ok { path := relativePath
                    size := node.bytes.length
                    content := node.bytes.take size
                    truncated := decide (size < node.bytes.length) }

/-- The specification's notion of a resolved path lying inside the root:
the root itself, or a descendant separated by `/`.  (Stated from the
spec's "paths escaping rootPath", for comparison with the code's bare
`startsWith` check.) -/
def withinRoot (absRoot absFile : String) : Bool :=
  absFile == absRoot || (absRoot ++ "/").toList.isPrefixOf absFile.toList

def c9fs : String → Option FsNode := fun p =>
  if p = "/data/app2/secret.txt" then
    some { isFile := true, bytes := [115, 101, 99] }
  else none

/-- C9.  The path check is a bare string-prefix test on the resolved
path, with no separator after the root: for root `/data/app` the request
`../app2/secret.txt` resolves to `/data/app2/secret.txt`, which starts
with `/data/app` as a string, so the read is served (`Except.ok`, not
truncated, full 3-byte content) although the resolved path lies outside
the root in the specification's sense — the required permission rejection
never happens. -/
theorem snippet_path_escape :
    readSourceSnippet c9fs "/data/app" "../app2/secret.txt" 4096
      = Except.ok { path := "../app2/secret.txt"
                    size := 3
                    content := [115, 101, 99]
                    truncated := false } ∧
    posixResolve (posixNormalizeAbs "/data/app") "../app2/secret.txt"
      = "/data/app2/secret.txt" ∧
    withinRoot (posixNormalizeAbs "/data/app") "/data/app2/secret.txt" = false := by
  refine ⟨rfl, by decide, by decide⟩
